import Mathlib

/-!
# Nine men in a trench: move generator, Manhattan heuristic and best-first search

A shallow embedding of `src/main.cpp`.

* A puzzle state (`vector<int>`) is a `List Int`; indices are natural numbers.
* An out-of-range vector access is undefined behaviour in the source; the
  functions that can perform one (`get_possible_moves`, `apply_operator`)
  return `Option`, with `none` standing for such an access.
* `std::priority_queue<Node>` is a bag of nodes: `top`/`pop` deliver a node that
  no other node of the queue beats under `Node::operator<`.  Which of several
  such nodes is delivered depends on the heap layout of the standard library, so
  the search loops are given as a step relation that allows each of them, next
  to an executable loop with one fixed choice.
* `Node::parent` points to a local variable of the loop and is never read; the
  embedding leaves it out.  `heuristic_cost` is a `double` that only ever holds
  small non-negative whole numbers, modelled as `Nat`.
* The `int` variables `path_cost`, `nodes_expanded` and `max_queue_size` are
  natural numbers without a bound.
* Printing is left out; what a search prints when it returns is its `Outcome`.
-/

namespace NineMen

/-- A board: cells 0..9 are the trench, cells 10, 11, 12 the recesses. -/
abbrev State := List Int

/-- The goal pushed cell by cell in `main`. -/
def goal_state : State := [1, 2, 3, 4, 5, 6, 7, 8, 9, 0, 0, 0, 0]

/-- The default puzzle of `main`. -/
def default_puzzle : State := [0, 2, 3, 4, 5, 6, 7, 8, 9, 1, 0, 0, 0]

/-- The class `Problem`: an initial state and a goal state. -/
structure Problem where
  initial_state : State
  goal_state : State
deriving DecidableEq

/-- The method `Problem::is_goal`. -/
def Problem.is_goal (problem : Problem) (state : State) : Bool :=
  decide (state = problem.goal_state)

/-! ## Move generator -/

/-- The method `Problem::findBlankPositions`: the indices `i` with `state[i] == 0`,
in the order the loop `for i = 0 .. size-1` meets them. -/
def findBlankPositions (state : State) : List Nat :=
  (List.range state.length).filter (fun i => decide (state.getD i 1 = 0))

/-- One statement `moves[i].push_back(text)`; `moves[i]` is outside the table
when `i` is not below its size. -/
def push_move (moves : List (List String)) (i : Nat) (text : String) :
    Option (List (List String)) :=
  if i < moves.length then some (moves.set i (moves.getD i [] ++ [text])) else none

/-- One statement `if (cond) moves[i].push_back(text);`. -/
def push_move_if (cond : Bool) (moves : List (List String)) (i : Nat) (text : String) :
    Option (List (List String)) :=
  if cond then push_move moves i text else some moves

/-- The body of the loop of `get_possible_moves` for blank number `i`, which
sits at the index `b = blank_index[i]`.  The test `blank_index[i] > -1` of the
source always holds. -/
def moves_for_blank (moves : List (List String)) (i b : Nat) : Option (List (List String)) := do
  let moves ← push_move_if (decide (b > 0 ∧ b < 10)) moves i "left"
  let moves ← push_move_if (decide (b < 9)) moves i "right"
  let moves ← push_move_if (decide (b = 3)) moves i "blank1 up"
  let moves ← push_move_if (decide (b = 5)) moves i "blank2 up"
  let moves ← push_move_if (decide (b = 7)) moves i "blank3 up"
  let moves ← push_move_if (decide (b = 10)) moves i "blank1 down"
  let moves ← push_move_if (decide (b = 11)) moves i "blank2 down"
  push_move_if (decide (b = 12)) moves i "blank3 down"

/-- The loop `for i = 0 .. blank_index.size()-1` of `get_possible_moves`, started at
blank number `i` with the blanks still to visit. -/
def moves_loop : List Nat → Nat → List (List String) → Option (List (List String))
  | [], _, moves => some moves
  | b :: rest, i, moves =>
    match moves_for_blank moves i b with
    | none => none
    | some moves1 => moves_loop rest (i + 1) moves1

/-- The method `Problem::get_possible_moves`: a table `moves(4)` of four action
lists, entry `i` filled for blank number `i`. -/
def get_possible_moves (state : State) : Option (List (List String)) :=
  moves_loop (findBlankPositions state) 0 (List.replicate 4 [])

/-- The call `swap(new_state[a], new_state[b])` with `int` indices: defined only
when both indices are inside the vector. -/
def swap_cells (new_state : State) (a b : Int) : Option State :=
  if 0 ≤ a ∧ a < new_state.length ∧ 0 ≤ b ∧ b < new_state.length then
    some ((new_state.set a.toNat (new_state.getD b.toNat 0)).set b.toNat
      (new_state.getD a.toNat 0))
  else none

/-- The method `Problem::apply_operator`: recompute the blanks, take blank
number `index` and swap its cell with the cell the text names.  A text that
is none of the eight leaves the copy as it is. -/
def apply_operator (state : State) (index : Nat) (move : String) : Option State :=
  match (findBlankPositions state)[index]? with
  | none => none
  | some p =>
    let blank_to_move : Int := p
    if move = "blank1 up" then swap_cells state blank_to_move (blank_to_move + 7)
    else if move = "blank2 up" then swap_cells state blank_to_move (blank_to_move + 6)
    else if move = "blank3 up" then swap_cells state blank_to_move (blank_to_move + 5)
    else if move = "blank1 down" then swap_cells state blank_to_move (blank_to_move - 7)
    else if move = "blank2 down" then swap_cells state blank_to_move (blank_to_move - 6)
    else if move = "blank3 down" then swap_cells state blank_to_move (blank_to_move - 5)
    else if move = "left" then swap_cells state blank_to_move (blank_to_move - 1)
    else if move = "right" then swap_cells state blank_to_move (blank_to_move + 1)
    else some state

/-! ## Manhattan heuristic -/

/-- The row chosen by the chain `if (index <= 9) .. else if (index == 10) ..` of
`Calheuristic`; the variable keeps its initial value 0 when no branch applies. -/
def grid_row (index : Nat) : Int :=
  if index ≤ 9 then 0
  else if index = 10 then 1
  else if index = 11 then 1
  else if index = 12 then 1
  else 0

/-- The column chosen by the same chain: `index % 10` in the trench, 3, 5, 7 for
the recesses, the initial value 0 otherwise. -/
def grid_column (index : Nat) : Int :=
  if index ≤ 9 then ((index % 10 : Nat) : Int)
  else if index = 10 then 3
  else if index = 11 then 5
  else if index = 12 then 7
  else 0

/-- The value `dis` of one round of the loop of `Calheuristic` for the cell `i`
holding `v`: `find` gives the first index of `v` in the goal (the size of the
goal when `v` is absent), and `dis = abs(dx) + abs(dy)`. -/
def cell_distance (goal : State) (i : Nat) (v : Int) : Nat :=
  let index := goal.indexOf v
  let dx := grid_column index - grid_column i
  let dy := grid_row index - grid_row i
  dx.natAbs + dy.natAbs

/-- The function `Calheuristic`: the sum of `dis` over the cells that hold a
non-zero value different from the goal's.  The read `goal[i]` is inside the goal
for every state that is not longer than the goal, as all states of a search
are; the model reads 0 beyond it. -/
def Calheuristic (state goal : State) : Nat :=
  (List.range state.length).foldl
    (fun manhattan i =>
      if state.getD i 0 ≠ 0 ∧ state.getD i 0 ≠ goal.getD i 0 then
        manhattan + cell_distance goal i (state.getD i 0)
      else manhattan)
    0

/-! ## Search nodes and the frontier -/

/-- The class `Node` without its parent pointer. -/
structure Node where
  state : State
  action : String
  path_cost : Nat
  heuristic_cost : Nat
deriving DecidableEq

/-- The comparison `Node::operator<`: reversed, so that the queue's largest node
is one of least `path_cost + heuristic_cost`. -/
def Node.lt (self other : Node) : Bool :=
  decide (self.path_cost + self.heuristic_cost > other.path_cost + other.heuristic_cost)

/-- What `frontier.top()` followed by `frontier.pop()` may deliver: a node of the
queue that is not below any other node under `operator<`, and the queue without
that node. -/
def IsTop (frontier : List Node) (node : Node) (rest : List Node) : Prop :=
  frontier.Perm (node :: rest) ∧ ∀ m ∈ rest, Node.lt node m = false

/-- One fixed choice of top node: the first node of the list that no later node
beats and that beats every earlier one. -/
def top_of : List Node → Option Node
  | [] => none
  | n :: rest =>
    match top_of rest with
    | none => some n
    | some m => if Node.lt n m then some m else some n

/-- An executable `top()` and `pop()`. -/
def pop_top (frontier : List Node) : Option (Node × List Node) :=
  match top_of frontier with
  | none => none
  | some n => some (n, frontier.erase n)

/-- The variables of a search loop. -/
structure SearchState where
  frontier : List Node
  explored : List State
  nodes_expanded : Nat
  max_queue_size : Nat
deriving DecidableEq

/-- What a search prints when it returns; `undefined_access` stands for an
out-of-range vector access during the expansion. -/
inductive Outcome where
  | goal (depth nodes_expanded max_queue_size : Nat)
  | no_solution (nodes_expanded max_queue_size : Nat)
  | undefined_access
deriving DecidableEq

/-- The result of one round of a search loop. -/
inductive Iteration where
  | finished (o : Outcome)
  | running (st : SearchState)
deriving DecidableEq

/-- The call `explored.insert(state)` on a `set`. -/
def explored_insert (explored : List State) (state : State) : List State :=
  if state ∈ explored then explored else state :: explored

/-! ## Uniform cost search -/

/-- The loop `for j` of `uniform_cost_search` over the actions of blank `i`. -/
def ucs_inner (node : Node) (explored : List State) (i : Nat) :
    List String → List Node → Option (List Node)
  | [], frontier => some frontier
  | move :: rest, frontier =>
    match apply_operator node.state i move with
    | none => none
    | some new_state =>
      if new_state ∈ explored then ucs_inner node explored i rest frontier
      else
        let new_path_cost := node.path_cost + 1
        ucs_inner node explored i rest (frontier ++ [⟨new_state, move, new_path_cost, 0⟩])

/-- The loop `for i` of `uniform_cost_search` over the move table. -/
def ucs_outer (node : Node) (explored : List State) :
    Nat → List (List String) → List Node → Option (List Node)
  | _, [], frontier => some frontier
  | i, acts :: rest, frontier =>
    match ucs_inner node explored i acts frontier with
    | none => none
    | some frontier1 => ucs_outer node explored (i + 1) rest frontier1

/-- One round of the `while` loop of `uniform_cost_search`, after `node` was
taken from the frontier and `rest` remained. -/
def ucs_iteration (problem : Problem) (node : Node) (rest : List Node) (st : SearchState) :
    Iteration :=
  if problem.is_goal node.state then
    .finished (.goal node.path_cost st.nodes_expanded st.max_queue_size)
  else
    let nodes_expanded := st.nodes_expanded + 1
    let explored := explored_insert st.explored node.state
    match get_possible_moves node.state with
    | none => .finished .undefined_access
    | some possible_moves =>
      match ucs_outer node explored 0 possible_moves rest with
      | none => .finished .undefined_access
      | some frontier =>
        .running ⟨frontier, explored, nodes_expanded, max st.max_queue_size frontier.length⟩

/-- The variables of `uniform_cost_search` when its loop starts. -/
def ucs_initial (problem : Problem) : SearchState :=
  ⟨[⟨problem.initial_state, "", 0, 0⟩], [], 0, 1⟩

/-! ## A* with the Manhattan heuristic -/

/-- The loop `for j` of `manhattan_heuristic_search`. -/
def astar_inner (problem : Problem) (node : Node) (explored : List State) (i : Nat) :
    List String → List Node → Option (List Node)
  | [], frontier => some frontier
  | move :: rest, frontier =>
    match apply_operator node.state i move with
    | none => none
    | some new_state =>
      if new_state ∈ explored then astar_inner problem node explored i rest frontier
      else
        let new_heuristic := Calheuristic new_state problem.goal_state
        let new_path_cost := node.path_cost + 1
        astar_inner problem node explored i rest
          (frontier ++ [⟨new_state, move, new_path_cost, new_heuristic⟩])

/-- The loop `for i` of `manhattan_heuristic_search`. -/
def astar_outer (problem : Problem) (node : Node) (explored : List State) :
    Nat → List (List String) → List Node → Option (List Node)
  | _, [], frontier => some frontier
  | i, acts :: rest, frontier =>
    match astar_inner problem node explored i acts frontier with
    | none => none
    | some frontier1 => astar_outer problem node explored (i + 1) rest frontier1

/-- One round of the `while` loop of `manhattan_heuristic_search`. -/
def astar_iteration (problem : Problem) (node : Node) (rest : List Node) (st : SearchState) :
    Iteration :=
  if problem.is_goal node.state then
    .finished (.goal node.path_cost st.nodes_expanded st.max_queue_size)
  else
    let nodes_expanded := st.nodes_expanded + 1
    let explored := explored_insert st.explored node.state
    match get_possible_moves node.state with
    | none => .finished .undefined_access
    | some possible_moves =>
      match astar_outer problem node explored 0 possible_moves rest with
      | none => .finished .undefined_access
      | some frontier =>
        .running ⟨frontier, explored, nodes_expanded, max st.max_queue_size frontier.length⟩

/-- The variables of `manhattan_heuristic_search` when its loop starts. -/
def astar_initial (problem : Problem) : SearchState :=
  let initial_heuristic := Calheuristic problem.initial_state problem.goal_state
  ⟨[⟨problem.initial_state, "", 0, initial_heuristic⟩], [], 0, 1⟩

/-! ## Running a loop -/

/-- One round of a `while (!frontier.empty())` loop that goes on: some top node
is taken and the round does not return. -/
def Steps (iter : Node → List Node → SearchState → Iteration) (st st1 : SearchState) : Prop :=
  ∃ node rest, IsTop st.frontier node rest ∧ iter node rest st = .running st1

/-- The outcomes a `while (!frontier.empty())` loop can end with from the
variables `st`, over all choices of top node. -/
inductive Runs (iter : Node → List Node → SearchState → Iteration) :
    SearchState → Outcome → Prop where
  | exhausted (st : SearchState) (h : st.frontier = []) :
      Runs iter st (.no_solution st.nodes_expanded st.max_queue_size)
  | finished (st : SearchState) (node : Node) (rest : List Node) (o : Outcome)
      (htop : IsTop st.frontier node rest) (hit : iter node rest st = .finished o) :
      Runs iter st o
  | step (st st1 : SearchState) (node : Node) (rest : List Node) (o : Outcome)
      (htop : IsTop st.frontier node rest) (hit : iter node rest st = .running st1)
      (hrun : Runs iter st1 o) : Runs iter st o

/-- Every run of the loop from `st` is finite. -/
def Terminates (iter : Node → List Node → SearchState → Iteration) (st : SearchState) : Prop :=
  Acc (fun a b => Steps iter b a) st

/-- The loop with the executable `pop_top`, for at most `fuel` rounds. -/
def search_loop (iter : Node → List Node → SearchState → Iteration) :
    Nat → SearchState → Option Outcome
  | 0, _ => none
  | fuel + 1, st =>
    match pop_top st.frontier with
    | none => some (.no_solution st.nodes_expanded st.max_queue_size)
    | some (node, rest) =>
      match iter node rest st with
      | .finished o => some o
      | .running st1 => search_loop iter fuel st1

/-- The function `uniform_cost_search`, run for at most `fuel` rounds. -/
def uniform_cost_search (fuel : Nat) (problem : Problem) : Option Outcome :=
  search_loop (ucs_iteration problem) fuel (ucs_initial problem)

/-- The function `manhattan_heuristic_search`, run for at most `fuel` rounds. -/
def manhattan_heuristic_search (fuel : Nat) (problem : Problem) : Option Outcome :=
  search_loop (astar_iteration problem) fuel (astar_initial problem)

/-! ## Legal moves and paths -/

/-- The pair `(i, move)` is met by the loops over `get_possible_moves(state)`. -/
def Offered (state : State) (i : Nat) (move : String) : Prop :=
  ∃ moves, get_possible_moves state = some moves ∧
    ∃ acts, moves[i]? = some acts ∧ move ∈ acts

/-- One legal move leads from `s` to `t`. -/
def LegalMove (s t : State) : Prop :=
  ∃ i move, Offered s i move ∧ apply_operator s i move = some t

/-- A sequence of `n` legal moves leads from `s` to `t`. -/
inductive MovePath : Nat → State → State → Prop where
  | nil (s : State) : MovePath 0 s s
  | cons (n : Nat) (s m t : State) (hmove : LegalMove s m) (hrest : MovePath n m t) :
      MovePath (n + 1) s t

/-- The opposite of an action. -/
def opposite (move : String) : String :=
  if move = "left" then "right"
  else if move = "right" then "left"
  else if move = "blank1 up" then "blank1 down"
  else if move = "blank2 up" then "blank2 down"
  else if move = "blank3 up" then "blank3 down"
  else if move = "blank1 down" then "blank1 up"
  else if move = "blank2 down" then "blank2 up"
  else if move = "blank3 down" then "blank3 up"
  else move

/-- The cell an action swaps the blank at `p` with. -/
def destination (p : Nat) (move : String) : Int :=
  if move = "blank1 up" then (p : Int) + 7
  else if move = "blank2 up" then (p : Int) + 6
  else if move = "blank3 up" then (p : Int) + 5
  else if move = "blank1 down" then (p : Int) - 7
  else if move = "blank2 down" then (p : Int) - 6
  else if move = "blank3 down" then (p : Int) - 5
  else if move = "left" then (p : Int) - 1
  else if move = "right" then (p : Int) + 1
  else p

/-! ## Notions used in the statements and proofs -/

/-- The action list of a blank at index `p` as the rules of the specification
state it, rule by rule and in their order: "left" when `0 < p < 10`, "right"
when `p < 9`, a lift when `p` is 3, 5 or 7, a lower when `p` is 10, 11 or 12.
It is written from the rules, not from `get_possible_moves`. -/
def rule_actions (p : Nat) : List String :=
  (if 0 < p ∧ p < 10 then ["left"] else []) ++
  (if p < 9 then ["right"] else []) ++
  (if p = 3 then ["blank1 up"] else []) ++
  (if p = 5 then ["blank2 up"] else []) ++
  (if p = 7 then ["blank3 up"] else []) ++
  (if p = 10 then ["blank1 down"] else []) ++
  (if p = 11 then ["blank2 down"] else []) ++
  (if p = 12 then ["blank3 down"] else [])

/-- The state with the cells `p` and `q` exchanged. -/
def swapAt (s : State) (p q : Nat) : State :=
  (s.set p (s.getD q 0)).set q (s.getD p 0)

/-- The cells `p` and `q` are joined by a step: neighbours in the trench, or a
recess and the trench cell below it. -/
def Link (p q : Nat) : Prop :=
  (q + 1 = p ∧ p < 10) ∨ (q = p + 1 ∧ p < 9) ∨ (p = 3 ∧ q = 10) ∨ (p = 5 ∧ q = 11) ∨
  (p = 7 ∧ q = 12) ∨ (p = 10 ∧ q = 3) ∨ (p = 11 ∧ q = 5) ∨ (p = 12 ∧ q = 7)

/-- The summand of `Calheuristic` for the cell `i` holding `v`. -/
def cell_cost (goal : State) (i : Nat) (v : Int) : Nat :=
  if v ≠ 0 ∧ v ≠ goal.getD i 0 then cell_distance goal i v else 0

/-- The distance between the grid places of the indices `k` and `i`. -/
def grid_distance (k i : Nat) : Nat :=
  (grid_column k - grid_column i).natAbs + (grid_row k - grid_row i).natAbs

/-- Whether two cells are linked can be computed. -/
instance (p q : Nat) : Decidable (Link p q) := by
  unfold Link
  infer_instance

/-- The loop `for j` of `manhattan_heuristic_search` with `h new_state` in the
place of the call `Calheuristic(new_state, problem.goal_state)`. -/
def expand_inner (h : State → Nat) (node : Node) (explored : List State) (i : Nat) :
    List String → List Node → Option (List Node)
  | [], frontier => some frontier
  | move :: rest, frontier =>
    match apply_operator node.state i move with
    | none => none
    | some new_state =>
      if new_state ∈ explored then expand_inner h node explored i rest frontier
      else
        expand_inner h node explored i rest
          (frontier ++ [⟨new_state, move, node.path_cost + 1, h new_state⟩])

/-- The loop `for i` of `manhattan_heuristic_search` with `h` in the place of
`Calheuristic`. -/
def expand_outer (h : State → Nat) (node : Node) (explored : List State) :
    Nat → List (List String) → List Node → Option (List Node)
  | _, [], frontier => some frontier
  | i, acts :: rest, frontier =>
    match expand_inner h node explored i acts frontier with
    | none => none
    | some frontier1 => expand_outer h node explored (i + 1) rest frontier1

/-- One round of the `while` loop of `manhattan_heuristic_search` with `h` in the
place of `Calheuristic` and `goal` for `problem.goal_state`; with `h` constantly
0 it is a round of `uniform_cost_search`. -/
def engine_iteration (h : State → Nat) (goal : State) (node : Node) (rest : List Node)
    (st : SearchState) : Iteration :=
  if decide (node.state = goal) then
    .finished (.goal node.path_cost st.nodes_expanded st.max_queue_size)
  else
    match get_possible_moves node.state with
    | none => .finished .undefined_access
    | some possible_moves =>
      match expand_outer h node (explored_insert st.explored node.state) 0 possible_moves rest with
      | none => .finished .undefined_access
      | some frontier =>
        .running ⟨frontier, explored_insert st.explored node.state, st.nodes_expanded + 1,
          max st.max_queue_size frontier.length⟩

/-- A path of `n` legal moves from `s` to `t` none of whose states after `s`
is in `E`. -/
inductive AvoidPath (E : List State) : Nat → State → State → Prop where
  | nil (s : State) : AvoidPath E 0 s s
  | cons (n : Nat) (s m t : State) (hmove : LegalMove s m) (hm : m ∉ E)
      (hrest : AvoidPath E n m t) : AvoidPath E (n + 1) s t

/-- The node `c` is a child that the expansion of `node` pushes: its state is
reached from `node.state` by a legal move and is not in `E`, its cost is one more
and its heuristic is `h` of its state. -/
def IsChild (h : State → Nat) (node : Node) (E : List State) (c : Node) : Prop :=
  LegalMove node.state c.state ∧ c.state ∉ E ∧ c.path_cost = node.path_cost + 1 ∧
    c.heuristic_cost = h c.state

/-- The states of a search stay arrangements of the initial state, and the
explored set has no repetition. -/
def SearchInv (init : State) (st : SearchState) : Prop :=
  (∀ n ∈ st.frontier, n.state.Perm init) ∧ (∀ s ∈ st.explored, s.Perm init) ∧
    st.explored.Nodup

/-- The number of frontier nodes whose state is already explored. -/
def stale_nodes (st : SearchState) : Nat :=
  st.frontier.countP (fun n => decide (n.state ∈ st.explored))

/-- The invariant behind optimality, for a goal at distance `d`: every frontier
node carries a real path cost and its own heuristic, and some frontier node
lies on a path to the goal of total length `d` whose later states are all
unexplored. -/
def OptInv (h : State → Nat) (init goal : State) (d : Nat) (st : SearchState) : Prop :=
  SearchInv init st ∧
    (∀ n ∈ st.frontier, MovePath n.path_cost init n.state ∧ n.heuristic_cost = h n.state) ∧
    ∃ n ∈ st.frontier, ∃ k, n.path_cost + k = d ∧ AvoidPath st.explored k n.state goal

/-- The variables of the shared loop when it starts: the initial node carries
the heuristic `h` of the initial state. -/
def engine_initial (h : State → Nat) (problem : Problem) : SearchState :=
  ⟨[⟨problem.initial_state, "", 0, h problem.initial_state⟩], [], 0, 1⟩

/-- The function `manhattan_heuristic_search` with `h` in the place of its calls
`Calheuristic(., problem.goal_state)`, run for at most `fuel` rounds. -/
def engine_search (h : State → Nat) (fuel : Nat) (problem : Problem) : Option Outcome :=
  search_loop (engine_iteration h problem.goal_state) fuel (engine_initial h problem)

/-- The search states a loop can be in after some rounds, over all choices of
top node. -/
def Reaches (iter : Node → List Node → SearchState → Iteration) (st st1 : SearchState) : Prop :=
  Relation.ReflTransGen (Steps iter) st st1

/-- The loop with the executable `pop_top`, for exactly `n` rounds that go on:
the variables after them, or `none` when the loop has returned before. -/
def search_rounds (iter : Node → List Node → SearchState → Iteration) :
    Nat → SearchState → Option SearchState
  | 0, st => some st
  | n + 1, st =>
    match pop_top st.frontier with
    | none => none
    | some (node, rest) =>
      match iter node rest st with
      | .finished _ => none
      | .running st1 => search_rounds iter n st1

/-- The invariant behind completeness: every frontier node carries the length
of a path of legal moves from the initial state to its state, and when the goal
can be reached at all, some frontier node has a path to the goal whose later
states are all unexplored. -/
def ReachInv (init goal : State) (st : SearchState) : Prop :=
  SearchInv init st ∧ (∀ n ∈ st.frontier, MovePath n.path_cost init n.state) ∧
    ((∃ k, MovePath k init goal) →
      ∃ n ∈ st.frontier, ∃ k, AvoidPath st.explored k n.state goal)

/-! ## Evaluation of the definitions on the default puzzle -/

theorem default_puzzle_blanks : findBlankPositions default_puzzle = [0, 10, 11, 12] := by
  decide

theorem default_puzzle_moves : get_possible_moves default_puzzle =
    some [["right"], ["blank1 down"], ["blank2 down"], ["blank3 down"]] := by
  decide

theorem default_puzzle_lower : apply_operator default_puzzle 1 "blank1 down" =
    some [0, 2, 3, 0, 5, 6, 7, 8, 9, 1, 4, 0, 0] := by
  decide

theorem default_puzzle_heuristic : Calheuristic default_puzzle goal_state = 9 := by
  decide

theorem one_move_search :
    manhattan_heuristic_search 3 ⟨[1, 2, 3, 4, 5, 6, 7, 8, 0, 9, 0, 0, 0], goal_state⟩ =
      some (.goal 1 1 5) := by
  decide

/-! ## The move generator: blanks and the move table -/

theorem mem_findBlankPositions {s : State} {p : Nat} :
    p ∈ findBlankPositions s ↔ s[p]? = some 0 := by
  unfold findBlankPositions
  rw [List.mem_filter, List.mem_range]
  constructor
  · rintro ⟨hp, h⟩
    have h2 : s.getD p 1 = 0 := by simpa using h
    rw [List.getD_eq_getElem?_getD, List.getElem?_eq_getElem hp] at h2
    rw [List.getElem?_eq_getElem hp]
    simpa using h2
  · intro h
    have hp : p < s.length := by
      by_contra hc
      rw [List.getElem?_eq_none (by omega)] at h
      cases h
    refine ⟨hp, ?_⟩
    rw [List.getD_eq_getElem?_getD, h]
    simp

theorem findBlankPositions_sorted (s : State) : (findBlankPositions s).Sorted (· < ·) := by
  unfold findBlankPositions
  exact List.Sorted.filter _ (List.sorted_lt_range _)

theorem findBlankPositions_nodup (s : State) : (findBlankPositions s).Nodup :=
  (findBlankPositions_sorted s).nodup

theorem set_getElem_same {α : Type} (l : List α) (i : Nat) (h : i < l.length) :
    l.set i l[i] = l := by
  apply List.ext_getElem?
  intro j
  rw [List.getElem?_set]
  by_cases hij : i = j
  · subst hij
    simp [h]
  · simp [hij]

theorem push_move_if_eq (c : Bool) (moves : List (List String)) (i : Nat) (t : String)
    (hi : i < moves.length) :
    push_move_if c moves i t =
      some (moves.set i (moves.getD i [] ++ (if c then [t] else []))) := by
  unfold push_move_if push_move
  cases c
  · simp [List.getD_eq_getElem?_getD, List.getElem?_eq_getElem hi, set_getElem_same]
  · simp [hi]

theorem set_append_twice (moves : List (List String)) (i : Nat) (a b : List String)
    (hi : i < moves.length) :
    (moves.set i (moves.getD i [] ++ a)).set i ((moves.set i (moves.getD i [] ++ a)).getD i [] ++ b)
      = moves.set i (moves.getD i [] ++ (a ++ b)) := by
  simp [List.getD_eq_getElem?_getD, List.getElem?_eq_getElem hi, List.getElem?_set, hi]

theorem moves_for_blank_eq (moves : List (List String)) (i b : Nat) (hi : i < moves.length) :
    moves_for_blank moves i b = some (moves.set i (moves.getD i [] ++ rule_actions b)) := by
  unfold moves_for_blank rule_actions
  simp only [Option.bind_eq_bind]
  rw [push_move_if_eq _ _ _ _ hi]
  simp only [Option.some_bind]
  repeat (rw [push_move_if_eq _ _ _ _ (by simpa using hi), set_append_twice _ _ _ _ hi]; simp only [Option.some_bind])
  rw [push_move_if_eq _ _ _ _ (by simpa using hi), set_append_twice _ _ _ _ hi]
  simp only [List.append_assoc, decide_eq_true_eq, gt_iff_lt]

theorem get_possible_moves_eq (s : State) (h4 : (findBlankPositions s).length ≤ 4) :
    get_possible_moves s =
      some ((findBlankPositions s).map rule_actions ++
        List.replicate (4 - (findBlankPositions s).length) []) := by
  unfold get_possible_moves
  generalize findBlankPositions s = bs at h4
  match bs, h4 with
  | [], _ => simp [moves_loop]
  | [a], _ => simp [moves_loop, moves_for_blank_eq, List.replicate]
  | [a, b], _ => simp [moves_loop, moves_for_blank_eq, List.replicate]
  | [a, b, c], _ => simp [moves_loop, moves_for_blank_eq, List.replicate]
  | [a, b, c, d], _ => simp [moves_loop, moves_for_blank_eq, List.replicate]
  | _ :: _ :: _ :: _ :: _ :: _, h => simp at h

theorem offered_iff (s : State) (h4 : (findBlankPositions s).length ≤ 4) (i : Nat)
    (move : String) :
    Offered s i move ↔
      ∃ p, (findBlankPositions s)[i]? = some p ∧ move ∈ rule_actions p := by
  unfold Offered
  rw [get_possible_moves_eq s h4]
  constructor
  · rintro ⟨moves, hm, acts, hacts, hmem⟩
    have hm2 := Option.some.inj hm
    subst hm2
    by_cases hi : i < (findBlankPositions s).length
    · rw [List.getElem?_append_left (by simpa using hi)] at hacts
      rw [List.getElem?_map] at hacts
      rw [List.getElem?_eq_getElem hi] at hacts ⊢
      simp only [Option.map_some', Option.some.injEq] at hacts
      exact ⟨_, rfl, hacts ▸ hmem⟩
    · rw [List.getElem?_append_right (by simpa using hi)] at hacts
      have := List.getElem?_mem hacts
      rw [List.mem_replicate] at this
      rw [this.2] at hmem
      simp at hmem
  · rintro ⟨p, hp, hmem⟩
    refine ⟨_, rfl, rule_actions p, ?_, hmem⟩
    have hi : i < (findBlankPositions s).length := by
      by_contra hc
      rw [List.getElem?_eq_none (by omega)] at hp
      cases hp
    rw [List.getElem?_append_left (by simpa using hi), List.getElem?_map, hp]
    rfl

theorem mem_rule_actions (p : Nat) (move : String) :
    move ∈ rule_actions p ↔
      (move = "left" ∧ 0 < p ∧ p < 10) ∨ (move = "right" ∧ p < 9) ∨
      (move = "blank1 up" ∧ p = 3) ∨ (move = "blank2 up" ∧ p = 5) ∨
      (move = "blank3 up" ∧ p = 7) ∨ (move = "blank1 down" ∧ p = 10) ∨
      (move = "blank2 down" ∧ p = 11) ∨ (move = "blank3 down" ∧ p = 12) := by
  unfold rule_actions
  simp only [List.mem_append, List.mem_ite_nil_right, List.mem_singleton]
  constructor
  · rintro (((((((h | h) | h) | h) | h) | h) | h) | h)
    · exact Or.inl ⟨h.2, h.1.1, h.1.2⟩
    · exact Or.inr (Or.inl ⟨h.2, h.1⟩)
    · exact Or.inr (Or.inr (Or.inl ⟨h.2, h.1⟩))
    · exact Or.inr (Or.inr (Or.inr (Or.inl ⟨h.2, h.1⟩)))
    · exact Or.inr (Or.inr (Or.inr (Or.inr (Or.inl ⟨h.2, h.1⟩))))
    · exact Or.inr (Or.inr (Or.inr (Or.inr (Or.inr (Or.inl ⟨h.2, h.1⟩)))))
    · exact Or.inr (Or.inr (Or.inr (Or.inr (Or.inr (Or.inr (Or.inl ⟨h.2, h.1⟩))))))
    · exact Or.inr (Or.inr (Or.inr (Or.inr (Or.inr (Or.inr (Or.inr ⟨h.2, h.1⟩))))))
  · rintro (h | h | h | h | h | h | h | h)
    · exact Or.inl (Or.inl (Or.inl (Or.inl (Or.inl (Or.inl (Or.inl ⟨⟨h.2.1, h.2.2⟩, h.1⟩))))))
    · exact Or.inl (Or.inl (Or.inl (Or.inl (Or.inl (Or.inl (Or.inr ⟨h.2, h.1⟩))))))
    · exact Or.inl (Or.inl (Or.inl (Or.inl (Or.inl (Or.inr ⟨h.2, h.1⟩)))))
    · exact Or.inl (Or.inl (Or.inl (Or.inl (Or.inr ⟨h.2, h.1⟩))))
    · exact Or.inl (Or.inl (Or.inl (Or.inr ⟨h.2, h.1⟩)))
    · exact Or.inl (Or.inl (Or.inr ⟨h.2, h.1⟩))
    · exact Or.inl (Or.inr ⟨h.2, h.1⟩)
    · exact Or.inr ⟨h.2, h.1⟩

theorem swap_cells_eq (s : State) (p q : Nat) (hp : p < s.length) (hq : q < s.length) :
    swap_cells s (p : Int) (q : Int) = some (swapAt s p q) := by
  unfold swap_cells swapAt
  have h : (0 : Int) ≤ p ∧ (p : Int) < s.length ∧ (0 : Int) ≤ q ∧ (q : Int) < s.length := by
    omega
  rw [if_pos h]
  simp

/-- A legal move is the exchange of a blank with a cell joined to it. -/
theorem apply_offered (s : State) (hlen : s.length = 13) (i p : Nat) (move : String)
    (hp : (findBlankPositions s)[i]? = some p) (hm : move ∈ rule_actions p) :
    ∃ q : Nat, destination p move = (q : Int) ∧ Link p q ∧ q < 13 ∧ p < 13 ∧
      s[p]? = some 0 ∧ apply_operator s i move = some (swapAt s p q) := by
  have hblank : s[p]? = some 0 := mem_findBlankPositions.mp (List.getElem?_mem hp)
  have hp13 : p < 13 := by
    by_contra hc
    rw [List.getElem?_eq_none (by omega)] at hblank
    cases hblank
  rw [mem_rule_actions] at hm
  unfold apply_operator
  rw [hp]
  rcases hm with ⟨rfl, h1, h2⟩ | ⟨rfl, h1⟩ | ⟨rfl, rfl⟩ | ⟨rfl, rfl⟩ | ⟨rfl, rfl⟩ | ⟨rfl, rfl⟩ |
    ⟨rfl, rfl⟩ | ⟨rfl, rfl⟩
  · refine ⟨p - 1, ?_, ?_, by omega, hp13, hblank, ?_⟩
    · simp [destination]; omega
    · unfold Link; omega
    · simp only [String.reduceEq, if_false, if_true]
      have : ((p : Int) - 1) = ((p - 1 : Nat) : Int) := by omega
      rw [this]
      exact swap_cells_eq s p (p - 1) (by omega) (by omega)
  · refine ⟨p + 1, ?_, ?_, by omega, hp13, hblank, ?_⟩
    · simp [destination]
    · unfold Link; omega
    · simp only [String.reduceEq, if_false, if_true]
      exact swap_cells_eq s p (p + 1) (by omega) (by omega)
  · refine ⟨10, ?_, ?_, by omega, hp13, hblank, ?_⟩
    · simp [destination]
    · unfold Link; omega
    · simpa using swap_cells_eq s 3 10 (by omega) (by omega)
  · refine ⟨11, ?_, ?_, by omega, hp13, hblank, ?_⟩
    · simp [destination]
    · unfold Link; omega
    · simpa using swap_cells_eq s 5 11 (by omega) (by omega)
  · refine ⟨12, ?_, ?_, by omega, hp13, hblank, ?_⟩
    · simp [destination]
    · unfold Link; omega
    · simpa using swap_cells_eq s 7 12 (by omega) (by omega)
  · refine ⟨3, ?_, ?_, by omega, hp13, hblank, ?_⟩
    · simp [destination]
    · unfold Link; omega
    · simpa using swap_cells_eq s 10 3 (by omega) (by omega)
  · refine ⟨5, ?_, ?_, by omega, hp13, hblank, ?_⟩
    · simp [destination]
    · unfold Link; omega
    · simpa using swap_cells_eq s 11 5 (by omega) (by omega)
  · refine ⟨7, ?_, ?_, by omega, hp13, hblank, ?_⟩
    · simp [destination]
    · unfold Link; omega
    · simpa using swap_cells_eq s 12 7 (by omega) (by omega)

/-! ## Exchanging two cells -/

theorem length_swapAt (s : State) (p q : Nat) : (swapAt s p q).length = s.length := by
  simp [swapAt]

theorem getElem?_swapAt (s : State) (p q j : Nat) (hp : p < s.length) (hq : q < s.length) :
    (swapAt s p q)[j]? = if j = q then s[p]? else if j = p then s[q]? else s[j]? := by
  unfold swapAt
  rw [List.getElem?_set, List.getElem?_set]
  simp only [List.length_set, hq, hp, if_true, List.getD_eq_getElem?_getD,
    List.getElem?_eq_getElem hp, List.getElem?_eq_getElem hq, Option.getD_some]
  by_cases h1 : q = j
  · subst h1; simp
  · by_cases h2 : p = j
    · subst h2
      simp [h1, Ne.symm h1]
    · simp [h1, h2, Ne.symm h1, Ne.symm h2]

theorem swapAt_swapAt (s : State) (p q : Nat) (hp : p < s.length) (hq : q < s.length) :
    swapAt (swapAt s p q) q p = s := by
  apply List.ext_getElem?
  intro j
  rw [getElem?_swapAt _ _ _ _ (by rw [length_swapAt]; exact hq) (by rw [length_swapAt]; exact hp)]
  rw [getElem?_swapAt _ _ _ _ hp hq, getElem?_swapAt _ _ _ _ hp hq, getElem?_swapAt _ _ _ _ hp hq]
  by_cases h1 : j = p
  · subst h1
    by_cases h2 : j = q
    · subst h2; simp
    · simp [h2]
  · by_cases h2 : j = q
    · subst h2; simp [h1, Ne.symm h1]
    · simp [h1, h2]

theorem swapAt_perm (s : State) (p q : Nat) (hp : p < s.length) (hq : q < s.length) :
    (swapAt s p q).Perm s := by
  rw [List.perm_iff_count]
  intro a
  unfold swapAt
  rw [List.count_set _ _ _ _ (by simpa using hq), List.count_set _ _ _ _ hp]
  simp only [List.getD_eq_getElem?_getD, List.getElem?_eq_getElem hp,
    List.getElem?_eq_getElem hq, Option.getD_some, List.getElem_set]
  have h1 := List.boole_getElem_le_countP (fun x => x == a) s p hp
  have h2 := List.boole_getElem_le_countP (fun x => x == a) s q hq
  rw [← List.count_eq_countP] at h1 h2
  by_cases hpq : p = q
  · subst hpq
    simp only [if_true]
    split_ifs at h1 ⊢ <;> omega
  · simp only [hpq, if_false]
    split_ifs at h1 h2 ⊢ <;> omega

theorem swapAt_blank_self (s : State) (p q : Nat) (hp : s[p]? = some 0) (hq : s[q]? = some 0) :
    swapAt s p q = s := by
  have hp1 : p < s.length := by
    by_contra hc
    rw [List.getElem?_eq_none (by omega)] at hp
    cases hp
  have hq1 : q < s.length := by
    by_contra hc
    rw [List.getElem?_eq_none (by omega)] at hq
    cases hq
  apply List.ext_getElem?
  intro j
  rw [getElem?_swapAt _ _ _ _ hp1 hq1]
  by_cases h2 : j = q
  · subst h2; simp [hp, hq]
  · by_cases h1 : j = p
    · subst h1; simp [h2, hp, hq]
    · simp [h1, h2]

/-- The number of blanks is the number of zero cells. -/
theorem length_findBlankPositions (s : State) : (findBlankPositions s).length = s.count 0 := by
  induction s using List.reverseRecOn with
  | nil => rfl
  | append_singleton l a ih =>
    unfold findBlankPositions at ih ⊢
    rw [List.length_append, List.length_singleton, List.range_succ, List.filter_append,
      List.length_append, List.count_append]
    have h1 : (List.range l.length).filter (fun i => decide ((l ++ [a]).getD i 1 = 0)) =
        (List.range l.length).filter (fun i => decide (l.getD i 1 = 0)) := by
      apply List.filter_congr
      intro i hi
      rw [List.mem_range] at hi
      simp [List.getD_eq_getElem?_getD, List.getElem?_append_left hi]
    rw [h1, ih]
    congr 1
    by_cases ha : a = 0
    · simp [ha, List.getD_eq_getElem?_getD]
    · simp [ha, List.getD_eq_getElem?_getD, List.count_singleton]

theorem blanks_of_perm {s t : State} (h : s.Perm t) :
    (findBlankPositions s).length = (findBlankPositions t).length := by
  rw [length_findBlankPositions, length_findBlankPositions]
  exact h.count_eq 0

theorem getElem?_lt_of_eq_some {α : Type} {l : List α} {i : Nat} {a : α} (h : l[i]? = some a) :
    i < l.length := by
  by_contra hc
  rw [List.getElem?_eq_none (by omega)] at h
  cases h

theorem opposite_spec (p q : Nat) (move : String) (hm : move ∈ rule_actions p)
    (hq : destination p move = (q : Int)) :
    opposite move ∈ rule_actions q ∧ destination q (opposite move) = (p : Int) := by
  rw [mem_rule_actions] at hm
  rw [mem_rule_actions]
  rcases hm with ⟨rfl, h1, h2⟩ | ⟨rfl, h1⟩ | ⟨rfl, rfl⟩ | ⟨rfl, rfl⟩ | ⟨rfl, rfl⟩ | ⟨rfl, rfl⟩ |
    ⟨rfl, rfl⟩ | ⟨rfl, rfl⟩ <;>
  simp [destination, opposite] at hq ⊢ <;> omega

/-- C6: for a state with at most four blanks, entry `i` of the table of
`get_possible_moves` is the action list the rules give the blank at
`p = findBlankPositions(state)[i]`: "left" iff `0 < p < 10`, "right" iff `p < 9`,
"blankK up" iff `p` is 3, 5, 7 and "blankK down" iff `p` is 10, 11, 12, in this
order and nothing else; so a blank at 9 gets no "right" and a blank in a recess
gets neither "left" nor "right". -/
theorem get_possible_moves_entry (state : State) (h4 : state.count 0 ≤ 4) (i : Nat)
    (hi : i < (findBlankPositions state).length) :
    ∃ moves p acts, get_possible_moves state = some moves ∧
      (findBlankPositions state)[i]? = some p ∧ moves[i]? = some acts ∧
      acts = rule_actions p ∧
      (∀ move, move ∈ acts ↔
        (move = "left" ∧ 0 < p ∧ p < 10) ∨ (move = "right" ∧ p < 9) ∨
        (move = "blank1 up" ∧ p = 3) ∨ (move = "blank2 up" ∧ p = 5) ∨
        (move = "blank3 up" ∧ p = 7) ∨ (move = "blank1 down" ∧ p = 10) ∨
        (move = "blank2 down" ∧ p = 11) ∨ (move = "blank3 down" ∧ p = 12)) ∧
      (p = 9 → "right" ∉ acts) ∧
      (p = 10 ∨ p = 11 ∨ p = 12 → "left" ∉ acts ∧ "right" ∉ acts) := by
  have h4b : (findBlankPositions state).length ≤ 4 := by
    rw [length_findBlankPositions]; exact h4
  refine ⟨_, (findBlankPositions state)[i], rule_actions (findBlankPositions state)[i],
    get_possible_moves_eq state h4b, List.getElem?_eq_getElem hi, ?_, rfl,
    fun move => mem_rule_actions _ move, ?_, ?_⟩
  · rw [List.getElem?_append_left (by simpa using hi), List.getElem?_map,
      List.getElem?_eq_getElem hi]
    rfl
  · intro h9 hmem
    rw [mem_rule_actions] at hmem
    simp at hmem
    omega
  · intro h
    constructor <;> intro hmem <;> rw [mem_rule_actions] at hmem <;> simp at hmem <;> omega

theorem get_possible_moves_entry_witness :
    ∃ moves p acts, get_possible_moves default_puzzle = some moves ∧
      (findBlankPositions default_puzzle)[1]? = some p ∧ moves[1]? = some acts ∧
      acts = rule_actions p ∧
      (∀ move, move ∈ acts ↔
        (move = "left" ∧ 0 < p ∧ p < 10) ∨ (move = "right" ∧ p < 9) ∨
        (move = "blank1 up" ∧ p = 3) ∨ (move = "blank2 up" ∧ p = 5) ∨
        (move = "blank3 up" ∧ p = 7) ∨ (move = "blank1 down" ∧ p = 10) ∨
        (move = "blank2 down" ∧ p = 11) ∨ (move = "blank3 down" ∧ p = 12)) ∧
      (p = 9 → "right" ∉ acts) ∧
      (p = 10 ∨ p = 11 ∨ p = 12 → "left" ∉ acts ∧ "right" ∉ acts) :=
  get_possible_moves_entry default_puzzle (by decide) 1 (by decide)

/-- C7: a move offered by `get_possible_moves` makes `apply_operator` return the
state with exactly two cells exchanged: the cell `p` of blank number `i` in
ascending index order and the cell `q` the action names (`p-1` for left, `p+1`
for right, recess 10/11/12 from trench 3/5/7 for a lift, trench 3/5/7 from recess
10/11/12 for a lower); all other cells are as in `s`. -/
theorem apply_operator_exchanges (s : State) (hlen : s.length = 13) (h4 : s.count 0 ≤ 4)
    (i : Nat) (move : String) (hoff : Offered s i move) :
    ∃ (p q : Nat) (t : State), (findBlankPositions s).Sorted (· < ·) ∧
      (findBlankPositions s)[i]? = some p ∧ s[p]? = some 0 ∧
      ((move = "left" ∧ q + 1 = p) ∨ (move = "right" ∧ q = p + 1) ∨
        (move = "blank1 up" ∧ p = 3 ∧ q = 10) ∨ (move = "blank2 up" ∧ p = 5 ∧ q = 11) ∨
        (move = "blank3 up" ∧ p = 7 ∧ q = 12) ∨ (move = "blank1 down" ∧ p = 10 ∧ q = 3) ∨
        (move = "blank2 down" ∧ p = 11 ∧ q = 5) ∨ (move = "blank3 down" ∧ p = 12 ∧ q = 7)) ∧
      apply_operator s i move = some t ∧ t.length = 13 ∧
      t[p]? = s[q]? ∧ t[q]? = s[p]? ∧ ∀ j, j ≠ p → j ≠ q → t[j]? = s[j]? := by
  have h4b : (findBlankPositions s).length ≤ 4 := by
    rw [length_findBlankPositions]; exact h4
  obtain ⟨p, hp, hm⟩ := (offered_iff s h4b i move).mp hoff
  obtain ⟨q, hdest, hlink, hq13, hp13, hblank, happ⟩ := apply_offered s hlen i p move hp hm
  have hpl : p < s.length := by omega
  have hql : q < s.length := by omega
  refine ⟨p, q, swapAt s p q, findBlankPositions_sorted s, hp, hblank, ?_, happ, ?_, ?_, ?_, ?_⟩
  · rw [mem_rule_actions] at hm
    rcases hm with ⟨rfl, h1, h2⟩ | ⟨rfl, h1⟩ | ⟨rfl, rfl⟩ | ⟨rfl, rfl⟩ | ⟨rfl, rfl⟩ |
      ⟨rfl, rfl⟩ | ⟨rfl, rfl⟩ | ⟨rfl, rfl⟩ <;>
    simp [destination] at hdest <;> simp <;> omega
  · rw [length_swapAt]; exact hlen
  · rw [getElem?_swapAt s p q p hpl hql]
    by_cases h : p = q
    · subst h; simp
    · simp [h]
  · rw [getElem?_swapAt s p q q hpl hql]
    simp
  · intro j hjp hjq
    rw [getElem?_swapAt s p q j hpl hql]
    simp [hjp, hjq]

theorem apply_operator_exchanges_witness :
    ∃ (p q : Nat) (t : State), (findBlankPositions default_puzzle).Sorted (· < ·) ∧
      (findBlankPositions default_puzzle)[1]? = some p ∧ default_puzzle[p]? = some 0 ∧
      (("blank1 down" = "left" ∧ q + 1 = p) ∨ ("blank1 down" = "right" ∧ q = p + 1) ∨
        ("blank1 down" = "blank1 up" ∧ p = 3 ∧ q = 10) ∨
        ("blank1 down" = "blank2 up" ∧ p = 5 ∧ q = 11) ∨
        ("blank1 down" = "blank3 up" ∧ p = 7 ∧ q = 12) ∨
        ("blank1 down" = "blank1 down" ∧ p = 10 ∧ q = 3) ∨
        ("blank1 down" = "blank2 down" ∧ p = 11 ∧ q = 5) ∨
        ("blank1 down" = "blank3 down" ∧ p = 12 ∧ q = 7)) ∧
      apply_operator default_puzzle 1 "blank1 down" = some t ∧ t.length = 13 ∧
      t[p]? = default_puzzle[q]? ∧ t[q]? = default_puzzle[p]? ∧
      ∀ j, j ≠ p → j ≠ q → t[j]? = default_puzzle[j]? :=
  apply_operator_exchanges default_puzzle (by decide) (by decide) 1 "blank1 down"
    ⟨[["right"], ["blank1 down"], ["blank2 down"], ["blank3 down"]], by decide,
      ["blank1 down"], by decide, by decide⟩

/-- C8: local reversibility.  After an offered move of the blank at `p` to the
cell `q`, the successor offers the opposite action to the blank that now sits
in `q` (blank number `j` of the successor), and applying it gives back `s`. -/
theorem move_reversible (s : State) (hlen : s.length = 13) (h4 : s.count 0 ≤ 4)
    (i : Nat) (move : String) (hoff : Offered s i move) :
    ∃ (p q j : Nat) (t : State), (findBlankPositions s)[i]? = some p ∧
      destination p move = (q : Int) ∧ apply_operator s i move = some t ∧
      (findBlankPositions t)[j]? = some q ∧ Offered t j (opposite move) ∧
      apply_operator t j (opposite move) = some s := by
  have h4b : (findBlankPositions s).length ≤ 4 := by
    rw [length_findBlankPositions]; exact h4
  obtain ⟨p, hp, hm⟩ := (offered_iff s h4b i move).mp hoff
  obtain ⟨q, hdest, hlink, hq13, hp13, hblank, happ⟩ := apply_offered s hlen i p move hp hm
  have hpl : p < s.length := by omega
  have hql : q < s.length := by omega
  have htq : (swapAt s p q)[q]? = some 0 := by
    rw [getElem?_swapAt s p q q hpl hql]; simpa using hblank
  obtain ⟨j, hj⟩ := List.getElem?_of_mem (mem_findBlankPositions.mpr htq)
  have ht4 : (findBlankPositions (swapAt s p q)).length ≤ 4 := by
    rw [blanks_of_perm (swapAt_perm s p q hpl hql)]; exact h4b
  obtain ⟨hopp, hback⟩ := opposite_spec p q move hm hdest
  have hoff2 : Offered (swapAt s p q) j (opposite move) :=
    (offered_iff _ ht4 j _).mpr ⟨q, hj, hopp⟩
  obtain ⟨r, hr, -, -, -, -, happ2⟩ :=
    apply_offered (swapAt s p q) (by rw [length_swapAt]; exact hlen) j q (opposite move) hj hopp
  have hrp : r = p := by
    rw [hback] at hr
    exact (Int.ofNat_inj.mp hr).symm
  subst hrp
  refine ⟨r, q, j, swapAt s r q, hp, hdest, happ, hj, hoff2, ?_⟩
  rw [happ2, swapAt_swapAt s r q hpl hql]

theorem move_reversible_witness :
    ∃ (p q j : Nat) (t : State), (findBlankPositions default_puzzle)[1]? = some p ∧
      destination p "blank1 down" = (q : Int) ∧
      apply_operator default_puzzle 1 "blank1 down" = some t ∧
      (findBlankPositions t)[j]? = some q ∧ Offered t j (opposite "blank1 down") ∧
      apply_operator t j (opposite "blank1 down") = some default_puzzle :=
  move_reversible default_puzzle (by decide) (by decide) 1 "blank1 down"
    ⟨[["right"], ["blank1 down"], ["blank2 down"], ["blank3 down"]], by decide,
      ["blank1 down"], by decide, by decide⟩

/-- The blanks below an index: blank number `i` sits at `p` exactly when `p` is
blank and `i` blanks lie below `p`. -/
theorem blank_ordinal_iff (s : State) (i p : Nat) :
    (findBlankPositions s)[i]? = some p ↔
      s[p]? = some 0 ∧
        ((List.range p).filter (fun j => decide (s.getD j 1 = 0))).length = i := by
  have key : ∀ p, s[p]? = some 0 →
      (findBlankPositions s)[((List.range p).filter
        (fun j => decide (s.getD j 1 = 0))).length]? = some p := by
    intro p hp
    have hpl : p < s.length := getElem?_lt_of_eq_some hp
    have hsplit : List.range s.length =
        List.range p ++ (p :: (List.range (s.length - p - 1)).map (fun k => p + 1 + k)) := by
      apply List.ext_getElem?
      intro j
      by_cases hj : j < p
      · rw [List.getElem?_append_left (by simpa using hj)]
        rw [List.getElem?_range (by omega), List.getElem?_range hj]
      · rw [List.getElem?_append_right (by simpa using hj)]
        simp only [List.length_range]
        by_cases hj2 : j = p
        · subst hj2
          simp [List.getElem?_range hpl]
        · obtain ⟨k, hk⟩ : ∃ k, j - p = k + 1 := ⟨j - p - 1, by omega⟩
          rw [hk, List.getElem?_cons_succ, List.getElem?_map]
          by_cases hj3 : j < s.length
          · rw [List.getElem?_range hj3, List.getElem?_range (by omega)]
            simp
            omega
          · rw [List.getElem?_eq_none (by simpa using hj3),
              List.getElem?_eq_none (by simp; omega)]
            rfl
    unfold findBlankPositions
    rw [hsplit, List.filter_append, List.filter_cons]
    have hb : decide (s.getD p 1 = 0) = true := by
      simp [List.getD_eq_getElem?_getD, hp]
    rw [if_pos hb, List.getElem?_append_right (le_refl _)]
    simp
  constructor
  · intro h
    have hp : s[p]? = some 0 := mem_findBlankPositions.mp (List.getElem?_mem h)
    refine ⟨hp, ?_⟩
    have h2 := key p hp
    have hi := getElem?_lt_of_eq_some h
    have hi2 := getElem?_lt_of_eq_some h2
    rw [List.getElem?_eq_getElem hi] at h
    rw [List.getElem?_eq_getElem hi2] at h2
    have := (List.Nodup.getElem_inj_iff (findBlankPositions_nodup s)).mp
      ((Option.some.inj h2).trans (Option.some.inj h).symm)
    exact this
  · rintro ⟨hp, rfl⟩
    exact key p hp

theorem blanks_below_extend (s : State) (a b : Nat) (hab : a ≤ b)
    (h : ∀ j, a ≤ j → j < b → s.getD j 1 ≠ 0) :
    ((List.range b).filter (fun j => decide (s.getD j 1 = 0))).length =
      ((List.range a).filter (fun j => decide (s.getD j 1 = 0))).length := by
  obtain ⟨c, rfl⟩ : ∃ c, b = a + c := ⟨b - a, by omega⟩
  rw [List.range_add, List.filter_append, List.length_append]
  have : ((List.range c).map (fun x => a + x)).filter (fun j => decide (s.getD j 1 = 0)) = [] := by
    rw [List.filter_eq_nil_iff]
    intro j hj
    rw [List.mem_map] at hj
    obtain ⟨k, hk, rfl⟩ := hj
    rw [List.mem_range] at hk
    simpa using h (a + k) (by omega) (by omega)
  rw [this]
  rfl

theorem blanks_below_congr (s t : State) (a : Nat)
    (h : ∀ j, j < a → t.getD j 1 = s.getD j 1) :
    ((List.range a).filter (fun j => decide (t.getD j 1 = 0))).length =
      ((List.range a).filter (fun j => decide (s.getD j 1 = 0))).length := by
  congr 1
  apply List.filter_congr
  intro j hj
  rw [List.mem_range] at hj
  rw [h j hj]

theorem getD_swapAt (s : State) (p q j : Nat) (hp : p < s.length) (hq : q < s.length) :
    (swapAt s p q).getD j 1 =
      if j = q then s.getD p 1 else if j = p then s.getD q 1 else s.getD j 1 := by
  simp only [List.getD_eq_getElem?_getD, getElem?_swapAt s p q j hp hq]
  split_ifs <;> rfl

/-- The moved blank keeps its number when it lands on a piece and passes no
other blank. -/
theorem blank_ordinal_swapAt (s : State) (i p q : Nat) (hq : q < s.length)
    (hp : (findBlankPositions s)[i]? = some p) (hpiece : s[q]? ≠ some 0)
    (hbetween : ∀ b, min p q < b → b < max p q → s[b]? ≠ some 0) :
    (findBlankPositions (swapAt s p q))[i]? = some q := by
  rw [blank_ordinal_iff] at hp ⊢
  obtain ⟨hblank, hcount⟩ := hp
  have hpl : p < s.length := getElem?_lt_of_eq_some hblank
  have hne : ∀ j, j < s.length → s[j]? ≠ some 0 → s.getD j 1 ≠ 0 := by
    intro j hj h1 h2
    apply h1
    rw [List.getD_eq_getElem?_getD, List.getElem?_eq_getElem hj] at h2
    rw [List.getElem?_eq_getElem hj]
    simpa using h2
  have hpq : p ≠ q := by
    rintro rfl
    exact hpiece hblank
  refine ⟨by rw [getElem?_swapAt s p q q hpl hq]; simpa using hblank, ?_⟩
  rw [← hcount]
  rcases Nat.lt_or_gt_of_ne hpq with hlt | hgt
  · rw [blanks_below_extend (swapAt s p q) p q (le_of_lt hlt)]
    · apply blanks_below_congr
      intro j hj
      rw [getD_swapAt s p q j hpl hq, if_neg (by omega), if_neg (by omega)]
    · intro j hj1 hj2
      rw [getD_swapAt s p q j hpl hq, if_neg (by omega)]
      by_cases hjp : j = p
      · rw [if_pos hjp]
        exact hne q hq hpiece
      · rw [if_neg hjp]
        exact hne j (by omega) (hbetween j (by rw [min_eq_left (le_of_lt hlt)]; omega)
          (by rw [max_eq_right (le_of_lt hlt)]; exact hj2))
  · rw [blanks_below_congr s (swapAt s p q) q]
    · symm
      apply blanks_below_extend s q p (le_of_lt hgt)
      intro j hj1 hj2
      by_cases hjq : j = q
      · subst hjq
        exact hne j hq hpiece
      · exact hne j (by omega) (hbetween j (by rw [min_eq_right (le_of_lt hgt)]; omega)
          (by rw [max_eq_left (le_of_lt hgt)]; exact hj2))
    · intro j hj
      rw [getD_swapAt s p q j hpl hq, if_neg (by omega), if_neg (by omega)]

/-- C9 (counterexample): undoing a move on the same blank number fails.  After
the lift of blank 0 from cell 3 to recess 10, blank 0 of the successor is the
blank at cell 5, and "blank1 down" on it reads the cell 5 - 7; after a "left"
onto another blank the state is unchanged and "right" on the same number moves
a piece. -/
theorem same_ordinal_reversal_fails :
    (([1, 2, 3, 0, 4, 0, 5, 6, 7, 8, 9, 0, 0] : State).length = 13 ∧
      ([1, 2, 3, 0, 4, 0, 5, 6, 7, 8, 9, 0, 0] : State).count 0 ≤ 4 ∧
      Offered [1, 2, 3, 0, 4, 0, 5, 6, 7, 8, 9, 0, 0] 0 "blank1 up" ∧
      apply_operator [1, 2, 3, 0, 4, 0, 5, 6, 7, 8, 9, 0, 0] 0 "blank1 up" =
        some [1, 2, 3, 9, 4, 0, 5, 6, 7, 8, 0, 0, 0] ∧
      apply_operator [1, 2, 3, 9, 4, 0, 5, 6, 7, 8, 0, 0, 0] 0 (opposite "blank1 up") = none) ∧
    (([0, 0, 1, 2, 3, 4, 5, 6, 7, 8, 9, 0, 0] : State).count 0 ≤ 4 ∧
      Offered [0, 0, 1, 2, 3, 4, 5, 6, 7, 8, 9, 0, 0] 1 "left" ∧
      apply_operator [0, 0, 1, 2, 3, 4, 5, 6, 7, 8, 9, 0, 0] 1 "left" =
        some [0, 0, 1, 2, 3, 4, 5, 6, 7, 8, 9, 0, 0] ∧
      apply_operator [0, 0, 1, 2, 3, 4, 5, 6, 7, 8, 9, 0, 0] 1 (opposite "left") =
        some [0, 1, 0, 2, 3, 4, 5, 6, 7, 8, 9, 0, 0]) := by
  refine ⟨⟨by decide, by decide, ?_, by decide, by decide⟩, by decide, ?_, by decide, by decide⟩
  · exact ⟨[["left", "right", "blank1 up"], ["left", "right", "blank2 up"], ["blank2 down"],
      ["blank3 down"]], by decide, _, rfl, by decide⟩
  · exact ⟨[["right"], ["left", "right"], ["blank2 down"], ["blank3 down"]], by decide, _, rfl,
      by decide⟩

/-- C9 (amended): undoing an offered move on the same blank number gives back
`s` when the destination cell holds a piece and no other blank lies strictly
between the two exchanged cells (for "left" and "right" there is no cell
between). -/
theorem same_ordinal_reversal (s : State) (hlen : s.length = 13) (h4 : s.count 0 ≤ 4)
    (i : Nat) (move : String) (hoff : Offered s i move) (p q : Nat)
    (hp : (findBlankPositions s)[i]? = some p) (hq : destination p move = (q : Int))
    (hpiece : s[q]? ≠ some 0)
    (hbetween : ∀ b, min p q < b → b < max p q → s[b]? ≠ some 0) :
    ∃ t, apply_operator s i move = some t ∧ apply_operator t i (opposite move) = some s := by
  have h4b : (findBlankPositions s).length ≤ 4 := by
    rw [length_findBlankPositions]; exact h4
  obtain ⟨p1, hp1, hm⟩ := (offered_iff s h4b i move).mp hoff
  have hpp : p1 = p := Option.some.inj (hp1.symm.trans hp)
  subst hpp
  obtain ⟨q1, hdest, hlink, hq13, hp13, hblank, happ⟩ := apply_offered s hlen i p1 move hp hm
  have hqq : q1 = q := Int.ofNat_inj.mp (hdest.symm.trans hq)
  subst hqq
  have hpl : p1 < s.length := by omega
  have hql : q1 < s.length := by omega
  have hj := blank_ordinal_swapAt s i p1 q1 hql hp hpiece hbetween
  obtain ⟨hopp, hback⟩ := opposite_spec p1 q1 move hm hdest
  obtain ⟨r, hr, -, -, -, -, happ2⟩ :=
    apply_offered (swapAt s p1 q1) (by rw [length_swapAt]; exact hlen) i q1 (opposite move) hj hopp
  have hrp : r = p1 := by
    rw [hback] at hr
    exact (Int.ofNat_inj.mp hr).symm
  subst hrp
  exact ⟨swapAt s r q1, happ, by rw [happ2, swapAt_swapAt s r q1 hpl hql]⟩

theorem same_ordinal_reversal_witness :
    ∃ t, apply_operator default_puzzle 1 "blank1 down" = some t ∧
      apply_operator t 1 (opposite "blank1 down") = some default_puzzle :=
  same_ordinal_reversal default_puzzle (by decide) (by decide) 1 "blank1 down"
    ⟨[["right"], ["blank1 down"], ["blank2 down"], ["blank3 down"]], by decide,
      ["blank1 down"], by decide, by decide⟩ 10 3 (by decide) (by decide) (by decide)
    (by
      intro b h1 h2
      have h3 : 3 < b := by simpa using h1
      have h4 : b < 10 := by simpa using h2
      interval_cases b <;> decide)

theorem foldl_cost_eq_sum (f : Nat → Nat) (c : Nat → Prop) [DecidablePred c] (l : List Nat)
    (init : Nat) :
    l.foldl (fun acc i => if c i then acc + f i else acc) init =
      init + (l.map (fun i => if c i then f i else 0)).sum := by
  induction l generalizing init with
  | nil => simp
  | cons x xs ih =>
    rw [List.foldl_cons, ih, List.map_cons, List.sum_cons]
    split_ifs <;> omega

theorem Calheuristic_eq_sum (state goal : State) :
    Calheuristic state goal =
      ((List.range state.length).map (fun i => cell_cost goal i (state.getD i 0))).sum := by
  unfold Calheuristic
  rw [foldl_cost_eq_sum (fun i => cell_distance goal i (state.getD i 0))
    (fun i => state.getD i 0 ≠ 0 ∧ state.getD i 0 ≠ goal.getD i 0)]
  simp only [cell_cost, zero_add]

theorem grid_distance_link : ∀ k : Fin 14, ∀ p q : Fin 13, Link p q →
    grid_distance k p ≤ grid_distance k q + 1 := by
  decide

theorem indexOf_goal_getD (i : Nat) (hi : i < 13) (v : Int) (hv : v ≠ 0)
    (h : v = goal_state.getD i 0) : goal_state.indexOf v = i := by
  subst h
  interval_cases i <;> first | rfl | exact absurd rfl hv

theorem cell_cost_eq (i : Nat) (hi : i < 13) (v : Int) (hv : v ≠ 0) :
    cell_cost goal_state i v = grid_distance (goal_state.indexOf v) i := by
  unfold cell_cost
  by_cases h : v = goal_state.getD i 0
  · rw [if_neg (by simp [h]), indexOf_goal_getD i hi v hv h]
    simp [grid_distance]
  · rw [if_pos ⟨hv, h⟩]
    rfl

theorem cell_cost_zero (goal : State) (i : Nat) : cell_cost goal i 0 = 0 := by
  simp [cell_cost]

theorem cell_cost_link (p q : Nat) (hp : p < 13) (hq : q < 13) (hlink : Link p q) (v : Int) :
    cell_cost goal_state p v ≤ cell_cost goal_state q v + 1 := by
  by_cases hv : v = 0
  · subst hv
    simp [cell_cost_zero]
  · rw [cell_cost_eq p hp v hv, cell_cost_eq q hq v hv]
    have hk : goal_state.indexOf v < 14 := by
      have := List.indexOf_le_length (a := v) (l := goal_state)
      have h13 : goal_state.length = 13 := rfl
      omega
    exact grid_distance_link ⟨_, hk⟩ ⟨p, hp⟩ ⟨q, hq⟩ hlink

theorem link_lt {p q : Nat} (h : Link p q) : p < 13 ∧ q < 13 ∧ p ≠ q := by
  unfold Link at h
  omega

theorem link_symm_fin : ∀ p q : Fin 13, Link p q → Link q p := by
  decide

theorem link_symm {p q : Nat} (h : Link p q) : Link q p :=
  link_symm_fin ⟨p, (link_lt h).1⟩ ⟨q, (link_lt h).2.1⟩ h

theorem sum_range_congr (f g : Nat → Nat) (n : Nat) (h : ∀ i, i < n → f i = g i) :
    ((List.range n).map f).sum = ((List.range n).map g).sum := by
  congr 1
  apply List.map_congr_left
  intro i hi
  exact h i (List.mem_range.mp hi)

theorem sum_range_point (f g : Nat → Nat) (n p : Nat) (hp : p < n)
    (h : ∀ i, i < n → i ≠ p → f i = g i) :
    ((List.range n).map f).sum + g p = ((List.range n).map g).sum + f p := by
  induction n with
  | zero => omega
  | succ n ih =>
    rw [List.range_succ, List.map_append, List.map_append, List.sum_append, List.sum_append]
    simp only [List.map_cons, List.map_nil, List.sum_cons, List.sum_nil, add_zero]
    by_cases hpn : p = n
    · subst hpn
      rw [sum_range_congr f g p (fun i hi => h i (by omega) (by omega))]
      omega
    · have := ih (by omega) (fun i hi hne => h i (by omega) hne)
      have := h n (by omega) (fun hc => hpn hc.symm)
      omega

/-- One exchange of a blank with a linked cell changes the heuristic by at most one. -/
theorem heuristic_swap (s : State) (hlen : s.length = 13) (p q : Nat) (hp : s[p]? = some 0)
    (hlink : Link p q) :
    Calheuristic s goal_state ≤ Calheuristic (swapAt s p q) goal_state + 1 ∧
      Calheuristic (swapAt s p q) goal_state ≤ Calheuristic s goal_state + 1 := by
  obtain ⟨hp13, hq13, hpq⟩ := link_lt hlink
  have hpl : p < s.length := by omega
  have hql : q < s.length := by omega
  rw [Calheuristic_eq_sum, Calheuristic_eq_sum, length_swapAt, hlen]
  have hsp : s.getD p 0 = 0 := by simp [List.getD_eq_getElem?_getD, hp]
  let f : Nat → Nat := fun i => cell_cost goal_state i (s.getD i 0)
  let g : Nat → Nat := fun i => cell_cost goal_state i ((swapAt s p q).getD i 0)
  let m : Nat → Nat := fun i => if i = p then g p else f i
  have hgp : g p = cell_cost goal_state p (s.getD q 0) := by
    show cell_cost goal_state p ((swapAt s p q).getD p 0) = _
    simp [List.getD_eq_getElem?_getD, getElem?_swapAt s p q p hpl hql, hpq]
  have hgq : g q = 0 := by
    show cell_cost goal_state q ((swapAt s p q).getD q 0) = _
    simp [List.getD_eq_getElem?_getD, getElem?_swapAt s p q q hpl hql, hp, cell_cost_zero]
  have hfp : f p = 0 := by
    show cell_cost goal_state p (s.getD p 0) = 0
    rw [hsp, cell_cost_zero]
  have h1 := sum_range_point f m 13 p hp13 (fun i _ hne => by simp [m, hne])
  have h2 := sum_range_point m g 13 q hq13 (fun i _ hne => by
    by_cases hip : i = p
    · simp [m, hip]
    · simp only [m, hip, if_false]
      show cell_cost goal_state i (s.getD i 0) = cell_cost goal_state i ((swapAt s p q).getD i 0)
      simp [List.getD_eq_getElem?_getD, getElem?_swapAt s p q i hpl hql, hip, hne])
  have hmp : m p = g p := by simp [m]
  have hmq : m q = f q := by simp [m, Ne.symm hpq]
  have hfq : f q = cell_cost goal_state q (s.getD q 0) := rfl
  have hl1 := cell_cost_link p q hp13 hq13 hlink (s.getD q 0)
  have hl2 := cell_cost_link q p hq13 hp13 (link_symm hlink) (s.getD q 0)
  show ((List.range 13).map f).sum ≤ ((List.range 13).map g).sum + 1 ∧
    ((List.range 13).map g).sum ≤ ((List.range 13).map f).sum + 1
  omega

/-! ## Legal moves -/

theorem legal_move_cases (s t : State) (hlen : s.length = 13) (h4 : s.count 0 ≤ 4)
    (h : LegalMove s t) :
    ∃ p q, Link p q ∧ s[p]? = some 0 ∧ t = swapAt s p q := by
  obtain ⟨i, move, hoff, happ⟩ := h
  have h4b : (findBlankPositions s).length ≤ 4 := by
    rw [length_findBlankPositions]; exact h4
  obtain ⟨p, hp, hm⟩ := (offered_iff s h4b i move).mp hoff
  obtain ⟨q, -, hlink, -, -, hblank, happ2⟩ := apply_offered s hlen i p move hp hm
  exact ⟨p, q, hlink, hblank, Option.some.inj (happ.symm.trans happ2)⟩

theorem legal_move_perm (s t : State) (hlen : s.length = 13) (h4 : s.count 0 ≤ 4)
    (h : LegalMove s t) : t.Perm s := by
  obtain ⟨p, q, hlink, -, rfl⟩ := legal_move_cases s t hlen h4 h
  obtain ⟨hp, hq, -⟩ := link_lt hlink
  exact swapAt_perm s p q (by omega) (by omega)

theorem legal_move_heuristic (s t : State) (hlen : s.length = 13) (h4 : s.count 0 ≤ 4)
    (h : LegalMove s t) :
    Calheuristic s goal_state ≤ Calheuristic t goal_state + 1 ∧
      Calheuristic t goal_state ≤ Calheuristic s goal_state + 1 := by
  obtain ⟨p, q, hlink, hp, rfl⟩ := legal_move_cases s t hlen h4 h
  exact heuristic_swap s hlen p q hp hlink

theorem move_path_perm {n : Nat} {s t : State} (h : MovePath n s t) (hlen : s.length = 13)
    (h4 : s.count 0 ≤ 4) : t.Perm s := by
  induction h with
  | nil s => exact List.Perm.refl _
  | cons n s m t hmove _ ih =>
    have hm := legal_move_perm s m hlen h4 hmove
    exact (ih (by rw [hm.length_eq]; exact hlen) (by rw [hm.count_eq]; exact h4)).trans hm

theorem move_path_heuristic {n : Nat} {s t : State} (h : MovePath n s t) (hlen : s.length = 13)
    (h4 : s.count 0 ≤ 4) : Calheuristic s goal_state ≤ n + Calheuristic t goal_state := by
  induction h with
  | nil s => omega
  | cons n s m t hmove _ ih =>
    have hm := legal_move_perm s m hlen h4 hmove
    have h1 := (legal_move_heuristic s m hlen h4 hmove).1
    have h2 := ih (by rw [hm.length_eq]; exact hlen) (by rw [hm.count_eq]; exact h4)
    omega

theorem move_path_append {n k : Nat} {s m t : State} (h1 : MovePath n s m)
    (h2 : MovePath k m t) : MovePath (n + k) s t := by
  induction h1 with
  | nil s => simpa using h2
  | cons n s m1 m hmove _ ih =>
    have := MovePath.cons (n + k) s m1 t hmove (ih h2)
    rw [show n + 1 + k = n + k + 1 by omega]
    exact this

theorem valid_length {s : State} (h : s.Perm goal_state) : s.length = 13 := by
  rw [h.length_eq]; rfl

theorem valid_blanks {s : State} (h : s.Perm goal_state) : s.count 0 ≤ 4 := by
  rw [h.count_eq]; decide

/-- C3: the Manhattan heuristic is admissible: a valid state that reaches the
goal by `n` legal moves has `Calheuristic` at most `n`. -/
theorem heuristic_admissible (s : State) (hvalid : s.Perm goal_state) (n : Nat)
    (hpath : MovePath n s goal_state) : Calheuristic s goal_state ≤ n := by
  have h := move_path_heuristic hpath (valid_length hvalid) (valid_blanks hvalid)
  have h0 : Calheuristic goal_state goal_state = 0 := by decide
  omega

theorem heuristic_admissible_witness :
    Calheuristic [1, 2, 3, 4, 5, 6, 7, 8, 0, 9, 0, 0, 0] goal_state ≤ 1 :=
  heuristic_admissible [1, 2, 3, 4, 5, 6, 7, 8, 0, 9, 0, 0, 0] (by decide) 1
    (MovePath.cons 0 _ goal_state _
      ⟨0, "right",
        ⟨[["left", "right"], ["blank1 down"], ["blank2 down"], ["blank3 down"]], by decide,
          ["left", "right"], by decide, by decide⟩,
        by decide⟩
      (MovePath.nil _))

theorem grid_distance_zero : ∀ k i : Fin 13, grid_distance k i = 0 → k = i := by
  decide

theorem goal_state_injective : ∀ i j : Fin 13,
    goal_state.getD i 0 = goal_state.getD j 0 → goal_state.getD i 0 ≠ 0 → i = j := by
  decide

theorem cell_cost_eq_zero (i : Nat) (hi : i < 13) (v : Int) (hv : v ∈ goal_state)
    (h : cell_cost goal_state i v = 0) : v = 0 ∨ v = goal_state.getD i 0 := by
  by_cases hv0 : v = 0
  · exact Or.inl hv0
  · right
    rw [cell_cost_eq i hi v hv0] at h
    have hk : goal_state.indexOf v < goal_state.length := List.indexOf_lt_length.mpr hv
    have h13 : goal_state.length = 13 := rfl
    have hk13 : goal_state.indexOf v < 13 := lt_of_lt_of_eq hk h13
    have hki := grid_distance_zero ⟨goal_state.indexOf v, hk13⟩ ⟨i, hi⟩ h
    have hki2 : goal_state.indexOf v = i := congrArg Fin.val hki
    have hget := List.getElem_indexOf hk
    rw [List.getD_eq_getElem?_getD, ← hki2, List.getElem?_eq_getElem hk, hget]
    rfl

/-- C4: on a valid state the Manhattan heuristic is 0 exactly at the goal. -/
theorem heuristic_zero_iff (s : State) (hvalid : s.Perm goal_state) :
    Calheuristic s goal_state = 0 ↔ s = goal_state := by
  constructor
  · intro h0
    have hlen := valid_length hvalid
    rw [Calheuristic_eq_sum, hlen] at h0
    have hcell : ∀ i, i < 13 → s.getD i 0 = 0 ∨ s.getD i 0 = goal_state.getD i 0 := by
      intro i hi
      have hz : cell_cost goal_state i (s.getD i 0) = 0 := by
        rw [List.sum_eq_zero_iff] at h0
        exact h0 _ (List.mem_map.mpr ⟨i, List.mem_range.mpr hi, rfl⟩)
      have hmem : s.getD i 0 ∈ goal_state := by
        rw [← hvalid.mem_iff, List.getD_eq_getElem?_getD, List.getElem?_eq_getElem (by omega)]
        exact List.getElem_mem _
      exact cell_cost_eq_zero i hi _ hmem hz
    apply List.ext_getElem?
    intro i
    by_cases hi : i < 13
    · have hgi : goal_state[i]? = some (goal_state.getD i 0) := by
        rw [List.getD_eq_getElem?_getD, List.getElem?_eq_getElem (by simpa using hi)]
        rfl
      have hsi : s[i]? = some (s.getD i 0) := by
        rw [List.getD_eq_getElem?_getD, List.getElem?_eq_getElem (by omega)]
        rfl
      rw [hgi, hsi]
      congr 1
      by_cases hg0 : goal_state.getD i 0 = 0
      · rcases hcell i hi with h | h
        · rw [h, hg0]
        · exact h
      · have hmem : goal_state.getD i 0 ∈ s := by
          rw [hvalid.mem_iff, List.getD_eq_getElem?_getD,
            List.getElem?_eq_getElem (by simpa using hi)]
          exact List.getElem_mem _
        obtain ⟨j, hj, hjv⟩ := List.getElem_of_mem hmem
        have hj13 : j < 13 := by omega
        have hsj : s.getD j 0 = goal_state.getD i 0 := by
          rw [List.getD_eq_getElem?_getD, List.getElem?_eq_getElem hj, hjv]
          rfl
        rcases hcell j hj13 with h | h
        · rw [hsj] at h
          exact absurd h hg0
        · rw [hsj] at h
          have hij := goal_state_injective ⟨i, hi⟩ ⟨j, hj13⟩ h hg0
          have hij2 : i = j := congrArg Fin.val hij
          subst hij2
          exact hsj
    · rw [List.getElem?_eq_none (by omega), List.getElem?_eq_none (by show 13 ≤ i; omega)]
  · rintro rfl
    decide

theorem heuristic_zero_iff_witness :
    Calheuristic default_puzzle goal_state = 0 ↔ default_puzzle = goal_state :=
  heuristic_zero_iff default_puzzle (by decide)

theorem ucs_inner_eq (node : Node) (explored : List State) (i : Nat) (acts : List String)
    (frontier : List Node) :
    ucs_inner node explored i acts frontier =
      expand_inner (fun _ => 0) node explored i acts frontier := by
  induction acts generalizing frontier with
  | nil => rfl
  | cons move rest ih =>
    unfold ucs_inner expand_inner
    cases apply_operator node.state i move with
    | none => rfl
    | some new_state =>
      simp only
      split_ifs
      · exact ih frontier
      · exact ih _

theorem ucs_outer_eq (node : Node) (explored : List State) (i : Nat)
    (moves : List (List String)) (frontier : List Node) :
    ucs_outer node explored i moves frontier =
      expand_outer (fun _ => 0) node explored i moves frontier := by
  induction moves generalizing i frontier with
  | nil => rfl
  | cons acts rest ih =>
    unfold ucs_outer expand_outer
    rw [ucs_inner_eq]
    cases expand_inner (fun _ => 0) node explored i acts frontier with
    | none => rfl
    | some frontier1 => exact ih _ _

theorem ucs_iteration_eq (problem : Problem) :
    ucs_iteration problem = engine_iteration (fun _ => 0) problem.goal_state := by
  funext node rest st
  unfold ucs_iteration engine_iteration Problem.is_goal
  split_ifs
  · rfl
  · cases get_possible_moves node.state with
    | none => rfl
    | some possible_moves =>
      simp only [ucs_outer_eq]

theorem astar_inner_eq (problem : Problem) (node : Node) (explored : List State) (i : Nat)
    (acts : List String) (frontier : List Node) :
    astar_inner problem node explored i acts frontier =
      expand_inner (fun s => Calheuristic s problem.goal_state) node explored i acts frontier := by
  induction acts generalizing frontier with
  | nil => rfl
  | cons move rest ih =>
    unfold astar_inner expand_inner
    cases apply_operator node.state i move with
    | none => rfl
    | some new_state =>
      simp only
      split_ifs
      · exact ih frontier
      · exact ih _

theorem astar_outer_eq (problem : Problem) (node : Node) (explored : List State) (i : Nat)
    (moves : List (List String)) (frontier : List Node) :
    astar_outer problem node explored i moves frontier =
      expand_outer (fun s => Calheuristic s problem.goal_state) node explored i moves
        frontier := by
  induction moves generalizing i frontier with
  | nil => rfl
  | cons acts rest ih =>
    unfold astar_outer expand_outer
    rw [astar_inner_eq]
    cases expand_inner (fun s => Calheuristic s problem.goal_state) node explored i acts
      frontier with
    | none => rfl
    | some frontier1 => exact ih _ _

theorem astar_iteration_eq (problem : Problem) :
    astar_iteration problem =
      engine_iteration (fun s => Calheuristic s problem.goal_state) problem.goal_state := by
  funext node rest st
  unfold astar_iteration engine_iteration Problem.is_goal
  split_ifs
  · rfl
  · cases get_possible_moves node.state with
    | none => rfl
    | some possible_moves =>
      simp only [astar_outer_eq]

/-! ## One expansion -/

theorem offered_apply (s : State) (hlen : s.length = 13) (h4 : s.count 0 ≤ 4) (i : Nat)
    (move : String) (hoff : Offered s i move) : ∃ t, apply_operator s i move = some t := by
  have h4b : (findBlankPositions s).length ≤ 4 := by
    rw [length_findBlankPositions]; exact h4
  obtain ⟨p, hp, hm⟩ := (offered_iff s h4b i move).mp hoff
  obtain ⟨q, -, -, -, -, -, happ⟩ := apply_offered s hlen i p move hp hm
  exact ⟨_, happ⟩

theorem expand_inner_spec (h : State → Nat) (node : Node) (E : List State) (i : Nat)
    (hlen : node.state.length = 13) (h4 : node.state.count 0 ≤ 4) (acts : List String)
    (fr : List Node) (hoff : ∀ a ∈ acts, Offered node.state i a) :
    ∃ C, expand_inner h node E i acts fr = some (fr ++ C) ∧
      (∀ c ∈ C, IsChild h node E c) ∧
      (∀ a ∈ acts, ∀ t, apply_operator node.state i a = some t → t ∉ E →
        ∃ c ∈ C, c.state = t) := by
  induction acts generalizing fr with
  | nil => exact ⟨[], by simp [expand_inner], by simp, by simp⟩
  | cons move rest ih =>
    have hoff1 := hoff move (List.mem_cons_self _ _)
    obtain ⟨t, happ⟩ := offered_apply node.state hlen h4 i move hoff1
    have hoff2 : ∀ a ∈ rest, Offered node.state i a :=
      fun a ha => hoff a (List.mem_cons_of_mem _ ha)
    unfold expand_inner
    rw [happ]
    simp only
    by_cases hE : t ∈ E
    · rw [if_pos hE]
      obtain ⟨C, hC, hchild, hall⟩ := ih fr hoff2
      refine ⟨C, hC, hchild, ?_⟩
      intro a ha t1 happ1 ht1
      rcases List.mem_cons.mp ha with rfl | ha
      · rw [happ] at happ1
        exact absurd (Option.some.inj happ1 ▸ hE) ht1
      · exact hall a ha t1 happ1 ht1
    · rw [if_neg hE]
      obtain ⟨C, hC, hchild, hall⟩ := ih (fr ++ [⟨t, move, node.path_cost + 1, h t⟩]) hoff2
      refine ⟨⟨t, move, node.path_cost + 1, h t⟩ :: C, ?_, ?_, ?_⟩
      · rw [hC, List.append_assoc]
        rfl
      · intro c hc
        rcases List.mem_cons.mp hc with rfl | hc
        · exact ⟨⟨i, move, hoff1, happ⟩, hE, rfl, rfl⟩
        · exact hchild c hc
      · intro a ha t1 happ1 ht1
        rcases List.mem_cons.mp ha with rfl | ha
        · rw [happ] at happ1
          exact ⟨_, List.mem_cons_self _ _, Option.some.inj happ1⟩
        · obtain ⟨c, hc, hct⟩ := hall a ha t1 happ1 ht1
          exact ⟨c, List.mem_cons_of_mem _ hc, hct⟩

theorem expand_outer_spec (h : State → Nat) (node : Node) (E : List State)
    (hlen : node.state.length = 13) (h4 : node.state.count 0 ≤ 4) (moves : List (List String))
    (i0 : Nat) (fr : List Node)
    (hoff : ∀ j acts, moves[j]? = some acts → ∀ a ∈ acts, Offered node.state (i0 + j) a) :
    ∃ C, expand_outer h node E i0 moves fr = some (fr ++ C) ∧
      (∀ c ∈ C, IsChild h node E c) ∧
      (∀ j acts a t, moves[j]? = some acts → a ∈ acts →
        apply_operator node.state (i0 + j) a = some t → t ∉ E → ∃ c ∈ C, c.state = t) := by
  induction moves generalizing i0 fr with
  | nil => exact ⟨[], by simp [expand_outer], by simp, by simp⟩
  | cons acts rest ih =>
    obtain ⟨C1, hC1, hchild1, hall1⟩ := expand_inner_spec h node E i0 hlen h4 acts fr
      (fun a ha => by simpa using hoff 0 acts (by simp) a ha)
    obtain ⟨C2, hC2, hchild2, hall2⟩ := ih (i0 + 1) (fr ++ C1)
      (fun j acts1 hj a ha => by
        have := hoff (j + 1) acts1 (by simpa using hj) a ha
        rw [show i0 + 1 + j = i0 + (j + 1) by omega]
        exact this)
    unfold expand_outer
    rw [hC1]
    simp only
    refine ⟨C1 ++ C2, by rw [hC2, List.append_assoc], ?_, ?_⟩
    · intro c hc
      rcases List.mem_append.mp hc with hc | hc
      · exact hchild1 c hc
      · exact hchild2 c hc
    · intro j acts1 a t hj ha happ ht
      cases j with
      | zero =>
        simp only [List.getElem?_cons_zero, Option.some.injEq] at hj
        subst hj
        obtain ⟨c, hc, hct⟩ := hall1 a ha t (by simpa using happ) ht
        exact ⟨c, List.mem_append_left _ hc, hct⟩
      | succ j =>
        obtain ⟨c, hc, hct⟩ := hall2 j acts1 a t (by simpa using hj) ha
          (by rw [show i0 + 1 + j = i0 + (j + 1) by omega]; exact happ) ht
        exact ⟨c, List.mem_append_right _ hc, hct⟩

/-- What one round of the loop does with a node that is not the goal and whose
state has 13 cells and at most four blanks. -/
theorem engine_iteration_spec (h : State → Nat) (goal : State) (node : Node) (rest : List Node)
    (st : SearchState) (hlen : node.state.length = 13) (h4 : node.state.count 0 ≤ 4)
    (hng : node.state ≠ goal) :
    ∃ C, engine_iteration h goal node rest st =
        .running ⟨rest ++ C, explored_insert st.explored node.state, st.nodes_expanded + 1,
          max st.max_queue_size (rest ++ C).length⟩ ∧
      (∀ c ∈ C, IsChild h node (explored_insert st.explored node.state) c) ∧
      (∀ t, LegalMove node.state t → t ∉ explored_insert st.explored node.state →
        ∃ c ∈ C, c.state = t) := by
  have h4b : (findBlankPositions node.state).length ≤ 4 := by
    rw [length_findBlankPositions]; exact h4
  have hgm := get_possible_moves_eq node.state h4b
  obtain ⟨C, hC, hchild, hall⟩ := expand_outer_spec h node
    (explored_insert st.explored node.state) hlen h4 _ 0 rest
    (fun j acts hj a ha => by
      rw [Nat.zero_add]
      exact ⟨_, hgm, acts, hj, ha⟩)
  refine ⟨C, ?_, hchild, ?_⟩
  · unfold engine_iteration
    rw [if_neg (by simpa using hng), hgm]
    simp only [hC]
  · rintro t ⟨i, move, hoff, happ⟩ ht
    obtain ⟨moves, hm, acts, hacts, ha⟩ := hoff
    rw [hgm] at hm
    have hm2 := Option.some.inj hm
    subst hm2
    exact hall i acts move t hacts ha (by rw [Nat.zero_add]; exact happ) ht

/-! ## Termination -/

theorem mem_explored_insert (E : List State) (x s : State) :
    s ∈ explored_insert E x ↔ s = x ∨ s ∈ E := by
  unfold explored_insert
  split_ifs with h
  · constructor
    · exact Or.inr
    · rintro (rfl | h1)
      · exact h
      · exact h1
  · exact List.mem_cons

theorem engine_iteration_goal (h : State → Nat) (goal : State) (node : Node) (rest : List Node)
    (st : SearchState) (hg : node.state = goal) :
    engine_iteration h goal node rest st =
      .finished (.goal node.path_cost st.nodes_expanded st.max_queue_size) := by
  unfold engine_iteration
  rw [if_pos (by simpa using hg)]

theorem explored_length_le (init : State) (st : SearchState) (hinv : SearchInv init st) :
    st.explored.length ≤ init.permutations.length := by
  apply List.Subperm.length_le
  apply List.Nodup.subperm hinv.2.2
  intro s hs
  exact List.mem_permutations.mpr (hinv.2.1 s hs)

/-- A round that goes on keeps the invariant and either explores a new state or
removes a stale node from the frontier. -/
theorem engine_step (h : State → Nat) (goal init : State) (hlen : init.length = 13)
    (h4 : init.count 0 ≤ 4) (st st1 : SearchState) (hinv : SearchInv init st)
    (hstep : Steps (engine_iteration h goal) st st1) :
    SearchInv init st1 ∧
      (st.explored.length < st1.explored.length ∨
        (st1.explored.length = st.explored.length ∧ stale_nodes st1 < stale_nodes st)) := by
  obtain ⟨node, rest, ⟨hperm, -⟩, hit⟩ := hstep
  obtain ⟨hfr, hex, hnd⟩ := hinv
  have hnode : node.state.Perm init := hfr node (hperm.mem_iff.mpr (List.mem_cons_self _ _))
  have hnlen : node.state.length = 13 := by rw [hnode.length_eq]; exact hlen
  have hn4 : node.state.count 0 ≤ 4 := by rw [hnode.count_eq]; exact h4
  have hng : node.state ≠ goal := by
    intro hg
    rw [engine_iteration_goal h goal node rest st hg] at hit
    cases hit
  obtain ⟨C, hC, hchild, -⟩ := engine_iteration_spec h goal node rest st hnlen hn4 hng
  rw [hC] at hit
  have hst1 := Iteration.running.inj hit
  subst hst1
  have hinv1 : SearchInv init
      ⟨rest ++ C, explored_insert st.explored node.state, st.nodes_expanded + 1,
        max st.max_queue_size (rest ++ C).length⟩ := by
    refine ⟨?_, ?_, ?_⟩
    · intro n hn
      rcases List.mem_append.mp hn with hn | hn
      · exact hfr n (hperm.mem_iff.mpr (List.mem_cons_of_mem _ hn))
      · exact (legal_move_perm node.state n.state hnlen hn4 (hchild n hn).1).trans hnode
    · intro s hs
      rcases (mem_explored_insert _ _ _).mp hs with rfl | hs
      · exact hnode
      · exact hex s hs
    · show (explored_insert st.explored node.state).Nodup
      unfold explored_insert
      split_ifs with hmem
      · exact hnd
      · exact List.nodup_cons.mpr ⟨hmem, hnd⟩
  refine ⟨hinv1, ?_⟩
  by_cases hmem : node.state ∈ st.explored
  · right
    have hE : explored_insert st.explored node.state = st.explored := by
      unfold explored_insert
      rw [if_pos hmem]
    refine ⟨by show (explored_insert st.explored node.state).length = _; rw [hE], ?_⟩
    unfold stale_nodes
    show (rest ++ C).countP (fun n => decide (n.state ∈ explored_insert st.explored node.state))
      < _
    rw [hE, hperm.countP_eq, List.countP_append, List.countP_cons]
    have hC0 : C.countP (fun n => decide (n.state ∈ st.explored)) = 0 := by
      rw [List.countP_eq_zero]
      intro c hc
      have := (hchild c hc).2.1
      rw [hE] at this
      simpa using this
    rw [hC0]
    simp [hmem]
  · left
    show _ < (explored_insert st.explored node.state).length
    unfold explored_insert
    rw [if_neg hmem]
    simp

theorem engine_terminates (h : State → Nat) (goal init : State) (hlen : init.length = 13)
    (h4 : init.count 0 ≤ 4) (st : SearchState) (hinv : SearchInv init st) :
    Terminates (engine_iteration h goal) st := by
  have key : ∀ a b : Nat, ∀ st : SearchState, SearchInv init st →
      init.permutations.length - st.explored.length = a → stale_nodes st = b →
      Terminates (engine_iteration h goal) st := by
    intro a
    induction a using Nat.strong_induction_on with
    | _ a iha =>
      intro b
      induction b using Nat.strong_induction_on with
      | _ b ihb =>
        intro st hinv ha hb
        constructor
        intro st1 hstep
        obtain ⟨hinv1, hdec⟩ := engine_step h goal init hlen h4 st st1 hinv hstep
        have hle := explored_length_le init st1 hinv1
        rcases hdec with hlt | ⟨heq, hlt⟩
        · exact iha _ (by omega) _ st1 hinv1 rfl rfl
        · exact ihb _ (by omega) st1 hinv1 (by omega) rfl
  exact key _ _ st hinv rfl rfl

/-! ## The executable loop -/

theorem top_of_spec (fr : List Node) :
    (top_of fr = none → fr = []) ∧
      ∀ n, top_of fr = some n → n ∈ fr ∧ ∀ m ∈ fr, Node.lt n m = false := by
  induction fr with
  | nil => exact ⟨fun _ => rfl, fun n hn => by simp [top_of] at hn⟩
  | cons x rest ih =>
    obtain ⟨ih1, ih2⟩ := ih
    unfold top_of
    cases htop : top_of rest with
    | none =>
      have hrest := ih1 htop
      subst hrest
      refine ⟨fun hc => by simp at hc, ?_⟩
      intro n hn
      simp only [Option.some.injEq] at hn
      subst hn
      refine ⟨List.mem_cons_self _ _, ?_⟩
      intro m hm
      simp only [List.mem_singleton] at hm
      subst hm
      simp [Node.lt]
    | some m0 =>
      obtain ⟨hm0, hall⟩ := ih2 m0 htop
      simp only
      by_cases hlt : Node.lt x m0 = true
      · rw [if_pos hlt]
        refine ⟨fun hc => by simp at hc, ?_⟩
        intro n hn
        simp only [Option.some.injEq] at hn
        subst hn
        refine ⟨List.mem_cons_of_mem _ hm0, ?_⟩
        intro m hm
        rcases List.mem_cons.mp hm with rfl | hm
        · simp only [Node.lt, decide_eq_true_eq, decide_eq_false_iff_not] at hlt ⊢
          omega
        · exact hall m hm
      · rw [if_neg hlt]
        refine ⟨fun hc => by simp at hc, ?_⟩
        intro n hn
        simp only [Option.some.injEq] at hn
        subst hn
        refine ⟨List.mem_cons_self _ _, ?_⟩
        intro m hm
        rcases List.mem_cons.mp hm with rfl | hm
        · simp [Node.lt]
        · have h1 := hall m hm
          simp only [Node.lt, decide_eq_true_eq, decide_eq_false_iff_not] at hlt h1 ⊢
          omega

theorem pop_top_none (fr : List Node) (h : pop_top fr = none) : fr = [] := by
  unfold pop_top at h
  cases htop : top_of fr with
  | none => exact (top_of_spec fr).1 htop
  | some n =>
    rw [htop] at h
    cases h

theorem pop_top_some (fr : List Node) (node : Node) (rest : List Node)
    (h : pop_top fr = some (node, rest)) : IsTop fr node rest := by
  unfold pop_top at h
  cases htop : top_of fr with
  | none =>
    rw [htop] at h
    cases h
  | some n =>
    rw [htop] at h
    simp only [Option.some.injEq, Prod.mk.injEq] at h
    obtain ⟨rfl, rfl⟩ := h
    obtain ⟨hmem, hall⟩ := (top_of_spec fr).2 n htop
    exact ⟨List.perm_cons_erase hmem, fun m hm => hall m (List.mem_of_mem_erase hm)⟩

/-- The executable loop performs one of the runs. -/
theorem search_loop_runs (iter : Node → List Node → SearchState → Iteration) (fuel : Nat)
    (st : SearchState) (o : Outcome) (h : search_loop iter fuel st = some o) :
    Runs iter st o := by
  induction fuel generalizing st with
  | zero => simp [search_loop] at h
  | succ fuel ih =>
    unfold search_loop at h
    cases hpop : pop_top st.frontier with
    | none =>
      rw [hpop] at h
      simp only [Option.some.injEq] at h
      subst h
      exact Runs.exhausted st (pop_top_none _ hpop)
    | some pr =>
      obtain ⟨node, rest⟩ := pr
      rw [hpop] at h
      simp only at h
      have htop := pop_top_some _ _ _ hpop
      cases hit : iter node rest st with
      | finished o1 =>
        rw [hit] at h
        simp only [Option.some.injEq] at h
        subst h
        exact Runs.finished st node rest o1 htop hit
      | running st1 =>
        rw [hit] at h
        exact Runs.step st st1 node rest o htop hit (ih st1 h)

/-- When every run is finite, the executable loop returns with enough fuel. -/
theorem search_loop_returns (iter : Node → List Node → SearchState → Iteration)
    (st : SearchState) (h : Terminates iter st) :
    ∃ fuel o, search_loop iter fuel st = some o := by
  induction h with
  | intro st _ ih =>
    cases hpop : pop_top st.frontier with
    | none =>
      exact ⟨1, .no_solution st.nodes_expanded st.max_queue_size, by simp [search_loop, hpop]⟩
    | some pr =>
      obtain ⟨node, rest⟩ := pr
      have htop := pop_top_some _ _ _ hpop
      cases hit : iter node rest st with
      | finished o1 => exact ⟨1, o1, by simp [search_loop, hpop, hit]⟩
      | running st1 =>
        obtain ⟨fuel, o, hf⟩ := ih st1 ⟨node, rest, htop, hit⟩
        exact ⟨fuel + 1, o, by simp [search_loop, hpop, hit, hf]⟩

/-- A run from states that are arrangements of a 13-cell board with at most four
blanks ends in one of the two reports. -/
theorem engine_runs_report (h : State → Nat) (goal init : State) (hlen : init.length = 13)
    (h4 : init.count 0 ≤ 4) (st : SearchState) (o : Outcome)
    (hrun : Runs (engine_iteration h goal) st o) (hinv : SearchInv init st) :
    (∃ d e q, o = .goal d e q) ∨ (∃ e q, o = .no_solution e q) := by
  induction hrun with
  | exhausted st hfr => exact Or.inr ⟨_, _, rfl⟩
  | finished st node rest o htop hit =>
    by_cases hg : node.state = goal
    · rw [engine_iteration_goal h goal node rest st hg] at hit
      exact Or.inl ⟨_, _, _, (Iteration.finished.inj hit).symm⟩
    · have hnode : node.state.Perm init :=
        hinv.1 node (htop.1.mem_iff.mpr (List.mem_cons_self _ _))
      obtain ⟨C, hC, -, -⟩ := engine_iteration_spec h goal node rest st
        (by rw [hnode.length_eq]; exact hlen) (by rw [hnode.count_eq]; exact h4) hg
      rw [hC] at hit
      cases hit
  | step st st1 node rest o htop hit _ ih =>
    exact ih (engine_step h goal init hlen h4 st st1 hinv ⟨node, rest, htop, hit⟩).1

/-! ## Optimality -/

theorem avoid_to_move {E : List State} {k : Nat} {s t : State} (h : AvoidPath E k s t) :
    MovePath k s t := by
  induction h with
  | nil s => exact MovePath.nil s
  | cons n s m t hmove _ _ ih => exact MovePath.cons n s m t hmove ih

theorem move_to_avoid {k : Nat} {s t : State} (h : MovePath k s t) : AvoidPath [] k s t := by
  induction h with
  | nil s => exact AvoidPath.nil s
  | cons n s m t hmove _ ih => exact AvoidPath.cons n s m t hmove (by simp) ih

theorem move_path_zero {s t : State} (h : MovePath 0 s t) : s = t := by
  cases h
  rfl

theorem avoid_insert {E E1 : List State} {x : State} (hE : ∀ m, m ∈ E1 ↔ m = x ∨ m ∈ E)
    {k : Nat} {s t : State} (h : AvoidPath E k s t) :
    AvoidPath E1 k s t ∨ ∃ j, j < k ∧ MovePath (k - j) s x ∧ AvoidPath E1 j x t := by
  induction h with
  | nil s => exact Or.inl (AvoidPath.nil s)
  | cons n s m t hmove hm _ ih =>
    rcases ih with ih | ⟨j, hj, hmp, hav⟩
    · by_cases hmx : m = x
      · subst hmx
        refine Or.inr ⟨n, by omega, ?_, ih⟩
        rw [show n + 1 - n = 0 + 1 by omega]
        exact MovePath.cons 0 s m m hmove (MovePath.nil m)
      · refine Or.inl (AvoidPath.cons n s m t hmove ?_ ih)
        rw [hE]
        rintro (h1 | h1)
        · exact hmx h1
        · exact hm h1
    · refine Or.inr ⟨j, by omega, ?_, hav⟩
      rw [show n + 1 - j = (n - j) + 1 by omega]
      exact MovePath.cons (n - j) s m x hmove hmp

theorem move_path_consistent (h : State → Nat)
    (hcons : ∀ s t : State, s.length = 13 → s.count 0 ≤ 4 → LegalMove s t → h s ≤ h t + 1)
    {n : Nat} {s t : State} (hp : MovePath n s t) (hlen : s.length = 13)
    (h4 : s.count 0 ≤ 4) : h s ≤ n + h t := by
  induction hp with
  | nil s => omega
  | cons n s m t hmove _ ih =>
    have hm := legal_move_perm s m hlen h4 hmove
    have h1 := hcons s m hlen h4 hmove
    have h2 := ih (by rw [hm.length_eq]; exact hlen) (by rw [hm.count_eq]; exact h4)
    omega

theorem opt_top_le (h : State → Nat) (init goal : State) (d : Nat) (st : SearchState)
    (hopt : OptInv h init goal d st) (node : Node) (rest : List Node)
    (htop : IsTop st.frontier node rest) (n : Node) (hn : n ∈ st.frontier) :
    node.path_cost + h node.state ≤ n.path_cost + h n.state := by
  obtain ⟨-, hcost, -⟩ := hopt
  have hnode : node ∈ st.frontier := htop.1.mem_iff.mpr (List.mem_cons_self _ _)
  rcases List.mem_cons.mp (htop.1.mem_iff.mp hn) with rfl | hrest
  · exact le_refl _
  · have hlt := htop.2 n hrest
    rw [← (hcost n hn).2, ← (hcost node hnode).2]
    simpa [Node.lt] using hlt

theorem opt_step (h : State → Nat)
    (hcons : ∀ s t : State, s.length = 13 → s.count 0 ≤ 4 → LegalMove s t → h s ≤ h t + 1)
    (init goal : State) (hlen : init.length = 13) (h4 : init.count 0 ≤ 4) (d : Nat)
    (hmin : ∀ m, MovePath m init goal → d ≤ m) (st st1 : SearchState)
    (hopt : OptInv h init goal d st) (hstep : Steps (engine_iteration h goal) st st1) :
    OptInv h init goal d st1 := by
  have hinv1 := (engine_step h goal init hlen h4 st st1 hopt.1 hstep).1
  obtain ⟨node, rest, htop, hit⟩ := hstep
  have hopt0 := hopt
  obtain ⟨hinv, hcost, n0, hn0, k, hk, hav⟩ := hopt
  have hperm := htop.1
  have hnodemem : node ∈ st.frontier := hperm.mem_iff.mpr (List.mem_cons_self _ _)
  have hnode : node.state.Perm init := hinv.1 node hnodemem
  have hnlen : node.state.length = 13 := by rw [hnode.length_eq]; exact hlen
  have hn4 : node.state.count 0 ≤ 4 := by rw [hnode.count_eq]; exact h4
  have hng : node.state ≠ goal := by
    intro hg
    rw [engine_iteration_goal h goal node rest st hg] at hit
    cases hit
  obtain ⟨C, hC, hchild, hall⟩ := engine_iteration_spec h goal node rest st hnlen hn4 hng
  rw [hC] at hit
  have hst1 := Iteration.running.inj hit
  subst hst1
  have hnodepath := (hcost node hnodemem).1
  -- a node on a shortest path that is expanded hands the path to one of its children
  have hand : ∀ j, node.path_cost + j = d →
      AvoidPath (explored_insert st.explored node.state) j node.state goal →
      ∃ c ∈ C, ∃ k1, c.path_cost + k1 = d ∧
        AvoidPath (explored_insert st.explored node.state) k1 c.state goal := by
    intro j hj hpath
    cases hpath with
    | nil => exact absurd rfl hng
    | cons n _ m _ hmove hm hrest =>
      obtain ⟨c, hc, hcm⟩ := hall m hmove hm
      refine ⟨c, hc, n, ?_, ?_⟩
      · rw [(hchild c hc).2.2.1]
        omega
      · rw [hcm]
        exact hrest
  refine ⟨hinv1, ?_, ?_⟩
  · intro n hn
    rcases List.mem_append.mp hn with hn | hn
    · exact hcost n (hperm.mem_iff.mpr (List.mem_cons_of_mem _ hn))
    · obtain ⟨hmove, -, hg, hh⟩ := hchild n hn
      refine ⟨?_, hh⟩
      rw [hg]
      exact move_path_append hnodepath (MovePath.cons 0 _ _ _ hmove (MovePath.nil _))
  · have hf := opt_top_le h init goal d st hopt0 node rest htop n0 hn0
    have hn0perm : n0.state.Perm init := hinv.1 n0 hn0
    rcases avoid_insert (mem_explored_insert st.explored node.state) hav with
      hav1 | ⟨j, hj, hmp, hav1⟩
    · rcases List.mem_cons.mp (hperm.mem_iff.mp hn0) with rfl | hrest
      · obtain ⟨c, hc, k1, hk1, hp1⟩ := hand k hk hav1
        exact ⟨c, List.mem_append_right _ hc, k1, hk1, hp1⟩
      · exact ⟨n0, List.mem_append_left _ hrest, k, hk, hav1⟩
    · have hge : d ≤ node.path_cost + j :=
        hmin _ (move_path_append hnodepath (avoid_to_move hav1))
      have hle := move_path_consistent h hcons hmp (by rw [hn0perm.length_eq]; exact hlen)
        (by rw [hn0perm.count_eq]; exact h4)
      obtain ⟨c, hc, k1, hk1, hp1⟩ := hand j (by omega) hav1
      exact ⟨c, List.mem_append_right _ hc, k1, hk1, hp1⟩

/-- Every run from a state with the invariant ends in the goal report with
depth `d`. -/
theorem engine_optimal (h : State → Nat)
    (hcons : ∀ s t : State, s.length = 13 → s.count 0 ≤ 4 → LegalMove s t → h s ≤ h t + 1)
    (init goal : State) (hlen : init.length = 13) (h4 : init.count 0 ≤ 4) (d : Nat)
    (hmin : ∀ m, MovePath m init goal → d ≤ m) (st : SearchState) (o : Outcome)
    (hrun : Runs (engine_iteration h goal) st o) (hopt : OptInv h init goal d st) :
    ∃ e q, o = .goal d e q := by
  induction hrun with
  | exhausted st hfr =>
    obtain ⟨-, -, n0, hn0, -⟩ := hopt
    rw [hfr] at hn0
    cases hn0
  | finished st node rest o htop hit =>
    have hopt0 := hopt
    obtain ⟨hinv, hcost, n0, hn0, k, hk, hav⟩ := hopt
    have hnodemem : node ∈ st.frontier := htop.1.mem_iff.mpr (List.mem_cons_self _ _)
    have hnode : node.state.Perm init := hinv.1 node hnodemem
    by_cases hg : node.state = goal
    · rw [engine_iteration_goal h goal node rest st hg] at hit
      have ho := (Iteration.finished.inj hit).symm
      subst ho
      have hf := opt_top_le h init goal d st hopt0 node rest htop n0 hn0
      have hn0perm : n0.state.Perm init := hinv.1 n0 hn0
      have hle := move_path_consistent h hcons (avoid_to_move hav)
        (by rw [hn0perm.length_eq]; exact hlen) (by rw [hn0perm.count_eq]; exact h4)
      have hge : d ≤ node.path_cost := hmin _ (hg ▸ (hcost node hnodemem).1)
      rw [hg] at hf
      have hd : node.path_cost = d := by omega
      exact ⟨_, _, by rw [hd]⟩
    · obtain ⟨C, hC, -, -⟩ := engine_iteration_spec h goal node rest st
        (by rw [hnode.length_eq]; exact hlen) (by rw [hnode.count_eq]; exact h4) hg
      rw [hC] at hit
      cases hit
  | step st st1 node rest o htop hit _ ih =>
    exact ih (opt_step h hcons init goal hlen h4 d hmin st st1 hopt ⟨node, rest, htop, hit⟩)

theorem opt_initial (h : State → Nat) (init goal : State) (d : Nat)
    (hpath : MovePath d init goal) :
    OptInv h init goal d ⟨[⟨init, "", 0, h init⟩], [], 0, 1⟩ := by
  refine ⟨⟨?_, ?_, List.nodup_nil⟩, ?_, ?_⟩
  · intro n hn
    simp only [List.mem_singleton] at hn
    subst hn
    exact List.Perm.refl _
  · intro s hs
    cases hs
  · intro n hn
    simp only [List.mem_singleton] at hn
    subst hn
    exact ⟨MovePath.nil _, rfl⟩
  · exact ⟨_, List.mem_singleton.mpr rfl, d, by simp, move_to_avoid hpath⟩

theorem inv_initial (init : State) (hc : Nat) :
    SearchInv init ⟨[⟨init, "", 0, hc⟩], [], 0, 1⟩ := by
  refine ⟨?_, ?_, List.nodup_nil⟩
  · intro n hn
    simp only [List.mem_singleton] at hn
    subst hn
    exact List.Perm.refl _
  · intro s hs
    cases hs

theorem exists_shortest {s t : State} {n : Nat} (h : MovePath n s t) :
    ∃ d, MovePath d s t ∧ ∀ m, MovePath m s t → d ≤ m := by
  classical
  have hex : ∃ m, MovePath m s t := ⟨n, h⟩
  exact ⟨Nat.find hex, Nat.find_spec hex, fun m hm => Nat.find_min' hex hm⟩

theorem zero_consistent :
    ∀ s t : State, s.length = 13 → s.count 0 ≤ 4 → LegalMove s t →
      (fun _ : State => 0) s ≤ (fun _ : State => 0) t + 1 :=
  fun _ _ _ _ _ => Nat.zero_le _

theorem manhattan_consistent :
    ∀ s t : State, s.length = 13 → s.count 0 ≤ 4 → LegalMove s t →
      (fun x : State => Calheuristic x goal_state) s ≤
        (fun x : State => Calheuristic x goal_state) t + 1 :=
  fun s t hlen h4 hmove => (legal_move_heuristic s t hlen h4 hmove).1

/-- The facts about one search on a solvable valid state, for a heuristic that
changes by at most one along a legal move. -/
theorem engine_search_optimal (h : State → Nat)
    (hcons : ∀ s t : State, s.length = 13 → s.count 0 ≤ 4 → LegalMove s t → h s ≤ h t + 1)
    (init goal : State) (hlen : init.length = 13) (h4 : init.count 0 ≤ 4) (d : Nat)
    (hpath : MovePath d init goal) (hmin : ∀ m, MovePath m init goal → d ≤ m) :
    Terminates (engine_iteration h goal) ⟨[⟨init, "", 0, h init⟩], [], 0, 1⟩ ∧
      (∀ o, Runs (engine_iteration h goal) ⟨[⟨init, "", 0, h init⟩], [], 0, 1⟩ o →
        ∃ e q, o = .goal d e q) ∧
      ∃ fuel e q, search_loop (engine_iteration h goal) fuel
        ⟨[⟨init, "", 0, h init⟩], [], 0, 1⟩ = some (.goal d e q) := by
  have hterm := engine_terminates h goal init hlen h4 _ (inv_initial init (h init))
  have hall : ∀ o, Runs (engine_iteration h goal) ⟨[⟨init, "", 0, h init⟩], [], 0, 1⟩ o →
      ∃ e q, o = .goal d e q := fun o hrun =>
    engine_optimal h hcons init goal hlen h4 d hmin _ o hrun (opt_initial h init goal d hpath)
  refine ⟨hterm, hall, ?_⟩
  obtain ⟨fuel, o, hf⟩ := search_loop_returns _ _ hterm
  obtain ⟨e, q, ho⟩ := hall o (search_loop_runs _ _ _ _ hf)
  exact ⟨fuel, e, q, by rw [hf, ho]⟩

/-- C1: on a valid initial state with the goal at shortest distance `d`, every
run of `uniform_cost_search` is finite, every run ends in the goal report with
depth `d`, and the executable loop returns that report. -/
theorem ucs_optimal (init : State) (hvalid : init.Perm goal_state) (d : Nat)
    (hpath : MovePath d init goal_state) (hmin : ∀ m, MovePath m init goal_state → d ≤ m) :
    Terminates (ucs_iteration ⟨init, goal_state⟩) (ucs_initial ⟨init, goal_state⟩) ∧
      (∀ o, Runs (ucs_iteration ⟨init, goal_state⟩) (ucs_initial ⟨init, goal_state⟩) o →
        ∃ e q, o = .goal d e q) ∧
      ∃ fuel e q, uniform_cost_search fuel ⟨init, goal_state⟩ = some (.goal d e q) := by
  unfold uniform_cost_search
  rw [ucs_iteration_eq]
  exact engine_search_optimal (fun _ => 0) zero_consistent init goal_state (valid_length hvalid)
    (valid_blanks hvalid) d hpath hmin

theorem one_move_path :
    MovePath 1 [1, 2, 3, 4, 5, 6, 7, 8, 0, 9, 0, 0, 0] goal_state :=
  MovePath.cons 0 _ goal_state _
    ⟨0, "right",
      ⟨[["left", "right"], ["blank1 down"], ["blank2 down"], ["blank3 down"]], by decide,
        ["left", "right"], by decide, by decide⟩,
      by decide⟩
    (MovePath.nil _)

theorem one_move_shortest (m : Nat)
    (hm : MovePath m [1, 2, 3, 4, 5, 6, 7, 8, 0, 9, 0, 0, 0] goal_state) : 1 ≤ m := by
  rcases Nat.eq_zero_or_pos m with h0 | hpos
  · subst h0
    exact absurd (move_path_zero hm) (by decide)
  · exact hpos

theorem ucs_optimal_witness :
    Terminates (ucs_iteration ⟨[1, 2, 3, 4, 5, 6, 7, 8, 0, 9, 0, 0, 0], goal_state⟩)
        (ucs_initial ⟨[1, 2, 3, 4, 5, 6, 7, 8, 0, 9, 0, 0, 0], goal_state⟩) ∧
      (∀ o, Runs (ucs_iteration ⟨[1, 2, 3, 4, 5, 6, 7, 8, 0, 9, 0, 0, 0], goal_state⟩)
          (ucs_initial ⟨[1, 2, 3, 4, 5, 6, 7, 8, 0, 9, 0, 0, 0], goal_state⟩) o →
        ∃ e q, o = .goal 1 e q) ∧
      ∃ fuel e q, uniform_cost_search fuel ⟨[1, 2, 3, 4, 5, 6, 7, 8, 0, 9, 0, 0, 0], goal_state⟩ =
        some (.goal 1 e q) :=
  ucs_optimal [1, 2, 3, 4, 5, 6, 7, 8, 0, 9, 0, 0, 0] (by decide) 1 one_move_path
    one_move_shortest

/-- C2: on a valid initial state from which the goal is reachable, every run of
`uniform_cost_search` and every run of `manhattan_heuristic_search` is finite
and ends in the goal report, with one and the same depth `d` for all runs of
both, whichever top node each round takes. -/
theorem ucs_astar_same_depth (init : State) (hvalid : init.Perm goal_state) (n : Nat)
    (hreach : MovePath n init goal_state) :
    ∃ d,
      (Terminates (ucs_iteration ⟨init, goal_state⟩) (ucs_initial ⟨init, goal_state⟩) ∧
        Terminates (astar_iteration ⟨init, goal_state⟩) (astar_initial ⟨init, goal_state⟩)) ∧
      (∀ o, Runs (ucs_iteration ⟨init, goal_state⟩) (ucs_initial ⟨init, goal_state⟩) o →
        ∃ e q, o = .goal d e q) ∧
      (∀ o, Runs (astar_iteration ⟨init, goal_state⟩) (astar_initial ⟨init, goal_state⟩) o →
        ∃ e q, o = .goal d e q) ∧
      (∃ fuel e q, uniform_cost_search fuel ⟨init, goal_state⟩ = some (.goal d e q)) ∧
      (∃ fuel e q, manhattan_heuristic_search fuel ⟨init, goal_state⟩ = some (.goal d e q)) := by
  obtain ⟨d, hpath, hmin⟩ := exists_shortest hreach
  have hu := engine_search_optimal (fun _ => 0) zero_consistent init goal_state
    (valid_length hvalid) (valid_blanks hvalid) d hpath hmin
  have ha := engine_search_optimal (fun x => Calheuristic x goal_state) manhattan_consistent
    init goal_state (valid_length hvalid) (valid_blanks hvalid) d hpath hmin
  unfold uniform_cost_search manhattan_heuristic_search
  rw [ucs_iteration_eq, astar_iteration_eq]
  exact ⟨d, ⟨hu.1, ha.1⟩, hu.2.1, ha.2.1, hu.2.2, ha.2.2⟩

theorem ucs_astar_same_depth_witness :
    ∃ d,
      (Terminates (ucs_iteration ⟨[1, 2, 3, 4, 5, 6, 7, 8, 0, 9, 0, 0, 0], goal_state⟩)
          (ucs_initial ⟨[1, 2, 3, 4, 5, 6, 7, 8, 0, 9, 0, 0, 0], goal_state⟩) ∧
        Terminates (astar_iteration ⟨[1, 2, 3, 4, 5, 6, 7, 8, 0, 9, 0, 0, 0], goal_state⟩)
          (astar_initial ⟨[1, 2, 3, 4, 5, 6, 7, 8, 0, 9, 0, 0, 0], goal_state⟩)) ∧
      (∀ o, Runs (ucs_iteration ⟨[1, 2, 3, 4, 5, 6, 7, 8, 0, 9, 0, 0, 0], goal_state⟩)
          (ucs_initial ⟨[1, 2, 3, 4, 5, 6, 7, 8, 0, 9, 0, 0, 0], goal_state⟩) o →
        ∃ e q, o = .goal d e q) ∧
      (∀ o, Runs (astar_iteration ⟨[1, 2, 3, 4, 5, 6, 7, 8, 0, 9, 0, 0, 0], goal_state⟩)
          (astar_initial ⟨[1, 2, 3, 4, 5, 6, 7, 8, 0, 9, 0, 0, 0], goal_state⟩) o →
        ∃ e q, o = .goal d e q) ∧
      (∃ fuel e q, uniform_cost_search fuel
        ⟨[1, 2, 3, 4, 5, 6, 7, 8, 0, 9, 0, 0, 0], goal_state⟩ = some (.goal d e q)) ∧
      (∃ fuel e q, manhattan_heuristic_search fuel
        ⟨[1, 2, 3, 4, 5, 6, 7, 8, 0, 9, 0, 0, 0], goal_state⟩ = some (.goal d e q)) :=
  ucs_astar_same_depth [1, 2, 3, 4, 5, 6, 7, 8, 0, 9, 0, 0, 0] (by decide) 1 one_move_path

theorem runs_singleton_goal (iter : Node → List Node → SearchState → Iteration)
    (n0 : Node) (E : List State) (e q : Nat) (o1 : Outcome)
    (hit : iter n0 [] ⟨[n0], E, e, q⟩ = .finished o1) :
    Terminates iter ⟨[n0], E, e, q⟩ ∧ (∀ o, Runs iter ⟨[n0], E, e, q⟩ o → o = o1) ∧
      search_loop iter 1 ⟨[n0], E, e, q⟩ = some o1 := by
  have htop : ∀ node rest, IsTop [n0] node rest → node = n0 ∧ rest = [] := by
    intro node rest h
    have hlen := h.1.length_eq
    have hrest : rest = [] := by
      cases rest with
      | nil => rfl
      | cons a l => simp at hlen
    subst hrest
    have hmem : node ∈ [n0] := h.1.mem_iff.mpr (List.mem_cons_self _ _)
    exact ⟨List.mem_singleton.mp hmem, rfl⟩
  refine ⟨?_, ?_, ?_⟩
  · constructor
    rintro st1 ⟨node, rest, h, hrun⟩
    obtain ⟨rfl, rfl⟩ := htop node rest h
    rw [hit] at hrun
    cases hrun
  · intro o hrun
    cases hrun with
    | exhausted _ hfr => cases hfr
    | finished _ node rest _ h hfin =>
      obtain ⟨rfl, rfl⟩ := htop node rest h
      rw [hit] at hfin
      exact (Iteration.finished.inj hfin).symm
    | step _ st1 node rest _ h hgo _ =>
      obtain ⟨rfl, rfl⟩ := htop node rest h
      rw [hit] at hgo
      cases hgo
  · have hpop : pop_top [n0] = some (n0, []) := by
      simp [pop_top, top_of]
    simp [search_loop, hpop, hit]

/-- C5: when the initial state is the goal state, every run of either search
ends at once in the goal report with depth 0, 0 nodes expanded and maximum
queue size 1, and the executable loops return it in their first round. -/
theorem solved_input_report (problem : Problem)
    (hsolved : problem.initial_state = problem.goal_state) :
    (Terminates (ucs_iteration problem) (ucs_initial problem) ∧
      (∀ o, Runs (ucs_iteration problem) (ucs_initial problem) o → o = .goal 0 0 1) ∧
      uniform_cost_search 1 problem = some (.goal 0 0 1)) ∧
    (Terminates (astar_iteration problem) (astar_initial problem) ∧
      (∀ o, Runs (astar_iteration problem) (astar_initial problem) o → o = .goal 0 0 1) ∧
      manhattan_heuristic_search 1 problem = some (.goal 0 0 1)) := by
  constructor
  · exact runs_singleton_goal (ucs_iteration problem) _ [] 0 1 _
      (by simp [ucs_iteration, Problem.is_goal, hsolved])
  · exact runs_singleton_goal (astar_iteration problem) _ [] 0 1 _
      (by simp [astar_iteration, Problem.is_goal, hsolved])

theorem solved_input_report_witness :
    (Terminates (ucs_iteration ⟨goal_state, goal_state⟩) (ucs_initial ⟨goal_state, goal_state⟩) ∧
      (∀ o, Runs (ucs_iteration ⟨goal_state, goal_state⟩)
        (ucs_initial ⟨goal_state, goal_state⟩) o → o = .goal 0 0 1) ∧
      uniform_cost_search 1 ⟨goal_state, goal_state⟩ = some (.goal 0 0 1)) ∧
    (Terminates (astar_iteration ⟨goal_state, goal_state⟩)
        (astar_initial ⟨goal_state, goal_state⟩) ∧
      (∀ o, Runs (astar_iteration ⟨goal_state, goal_state⟩)
        (astar_initial ⟨goal_state, goal_state⟩) o → o = .goal 0 0 1) ∧
      manhattan_heuristic_search 1 ⟨goal_state, goal_state⟩ = some (.goal 0 0 1)) :=
  solved_input_report ⟨goal_state, goal_state⟩ rfl

/-- C10: from a 13-cell initial state with at most four blanks, every run of the
loop of `uniform_cost_search` and of `manhattan_heuristic_search` is finite,
whatever goal the problem has; a run ends in the goal report or, with an empty
frontier, in the report that no solution was found; and the executable loops
return with enough fuel. -/
theorem search_terminates (problem : Problem) (hlen : problem.initial_state.length = 13)
    (h4 : problem.initial_state.count 0 ≤ 4) :
    (Terminates (ucs_iteration problem) (ucs_initial problem) ∧
      (∀ o, Runs (ucs_iteration problem) (ucs_initial problem) o →
        (∃ d e q, o = .goal d e q) ∨ (∃ e q, o = .no_solution e q)) ∧
      ∃ fuel o, uniform_cost_search fuel problem = some o) ∧
    (Terminates (astar_iteration problem) (astar_initial problem) ∧
      (∀ o, Runs (astar_iteration problem) (astar_initial problem) o →
        (∃ d e q, o = .goal d e q) ∨ (∃ e q, o = .no_solution e q)) ∧
      ∃ fuel o, manhattan_heuristic_search fuel problem = some o) := by
  unfold uniform_cost_search manhattan_heuristic_search
  rw [ucs_iteration_eq, astar_iteration_eq]
  have hu := engine_terminates (fun _ => 0) problem.goal_state problem.initial_state hlen h4
    (ucs_initial problem) (inv_initial _ _)
  have ha := engine_terminates (fun s => Calheuristic s problem.goal_state) problem.goal_state
    problem.initial_state hlen h4 (astar_initial problem) (inv_initial _ _)
  exact ⟨⟨hu, fun o hrun => engine_runs_report _ _ _ hlen h4 _ o hrun (inv_initial _ _),
      search_loop_returns _ _ hu⟩,
    ⟨ha, fun o hrun => engine_runs_report _ _ _ hlen h4 _ o hrun (inv_initial _ _),
      search_loop_returns _ _ ha⟩⟩

theorem search_terminates_witness :
    (Terminates (ucs_iteration ⟨default_puzzle, goal_state⟩)
        (ucs_initial ⟨default_puzzle, goal_state⟩) ∧
      (∀ o, Runs (ucs_iteration ⟨default_puzzle, goal_state⟩)
          (ucs_initial ⟨default_puzzle, goal_state⟩) o →
        (∃ d e q, o = .goal d e q) ∨ (∃ e q, o = .no_solution e q)) ∧
      ∃ fuel o, uniform_cost_search fuel ⟨default_puzzle, goal_state⟩ = some o) ∧
    (Terminates (astar_iteration ⟨default_puzzle, goal_state⟩)
        (astar_initial ⟨default_puzzle, goal_state⟩) ∧
      (∀ o, Runs (astar_iteration ⟨default_puzzle, goal_state⟩)
          (astar_initial ⟨default_puzzle, goal_state⟩) o →
        (∃ d e q, o = .goal d e q) ∨ (∃ e q, o = .no_solution e q)) ∧
      ∃ fuel o, manhattan_heuristic_search fuel ⟨default_puzzle, goal_state⟩ = some o) :=
  search_terminates ⟨default_puzzle, goal_state⟩ (by decide) (by decide)

/-- C17: the Manhattan heuristic is consistent with unit move cost: an offered
move on a valid state changes `Calheuristic` by at most one, hence
`Calheuristic(s) <= 1 + Calheuristic(s')`. -/
theorem heuristic_consistent (s : State) (hvalid : s.Perm goal_state) (i : Nat)
    (move : String) (hoff : Offered s i move) :
    ∃ t, apply_operator s i move = some t ∧
      |(Calheuristic t goal_state : Int) - (Calheuristic s goal_state : Int)| ≤ 1 ∧
      Calheuristic s goal_state ≤ 1 + Calheuristic t goal_state := by
  obtain ⟨t, happ⟩ := offered_apply s (valid_length hvalid) (valid_blanks hvalid) i move hoff
  obtain ⟨h1, h2⟩ := legal_move_heuristic s t (valid_length hvalid) (valid_blanks hvalid)
    ⟨i, move, hoff, happ⟩
  refine ⟨t, happ, ?_, by omega⟩
  rw [abs_le]
  constructor <;> omega

theorem heuristic_consistent_witness :
    ∃ t, apply_operator default_puzzle 1 "blank1 down" = some t ∧
      |(Calheuristic t goal_state : Int) - (Calheuristic default_puzzle goal_state : Int)| ≤ 1 ∧
      Calheuristic default_puzzle goal_state ≤ 1 + Calheuristic t goal_state :=
  heuristic_consistent default_puzzle (by decide) 1 "blank1 down"
    ⟨[["right"], ["blank1 down"], ["blank2 down"], ["blank3 down"]], by decide,
      ["blank1 down"], by decide, by decide⟩

/-- C19: index safety of an expansion.  A pair `(i, move)` taken from the table
of a 13-cell state with at most four blanks has `i` below the number of blanks,
and both cells that `apply_operator` exchanges, the blank's cell and the cell at
the offset of the move, lie in 0..12; the call returns a state. -/
theorem expansion_index_safe (s : State) (hlen : s.length = 13) (h4 : s.count 0 ≤ 4)
    (i : Nat) (move : String) (hoff : Offered s i move) :
    i < (findBlankPositions s).length ∧
      ∃ p : Nat, (findBlankPositions s)[i]? = some p ∧ (0 : Int) ≤ (p : Int) ∧
        (p : Int) < 13 ∧ 0 ≤ destination p move ∧ destination p move < 13 ∧
        ∃ t, apply_operator s i move = some t := by
  have h4b : (findBlankPositions s).length ≤ 4 := by
    rw [length_findBlankPositions]; exact h4
  obtain ⟨p, hp, hm⟩ := (offered_iff s h4b i move).mp hoff
  obtain ⟨q, hdest, -, hq13, hp13, -, happ⟩ := apply_offered s hlen i p move hp hm
  refine ⟨getElem?_lt_of_eq_some hp, p, hp, by omega, by omega, ?_, ?_, _, happ⟩
  · rw [hdest]; omega
  · rw [hdest]; omega

theorem expansion_index_safe_witness :
    1 < (findBlankPositions default_puzzle).length ∧
      ∃ p : Nat, (findBlankPositions default_puzzle)[1]? = some p ∧ (0 : Int) ≤ (p : Int) ∧
        (p : Int) < 13 ∧ 0 ≤ destination p "blank1 down" ∧ destination p "blank1 down" < 13 ∧
        ∃ t, apply_operator default_puzzle 1 "blank1 down" = some t :=
  expansion_index_safe default_puzzle (by decide) (by decide) 1 "blank1 down"
    ⟨[["right"], ["blank1 down"], ["blank2 down"], ["blank3 down"]], by decide,
      ["blank1 down"], by decide, by decide⟩

/-- C20: moves are offered without a look at the destination cell.  For an
offered move of the blank at `p` to the cell `q`, the successor is `s` itself
exactly when `q` holds 0 too; otherwise it differs from `s` in the cells `p` and
`q` and in no other cell. -/
theorem blank_swap_iff (s : State) (hlen : s.length = 13) (h4 : s.count 0 ≤ 4)
    (i : Nat) (move : String) (hoff : Offered s i move) :
    ∃ (p q : Nat) (t : State), (findBlankPositions s)[i]? = some p ∧
      destination p move = (q : Int) ∧ apply_operator s i move = some t ∧
      (t = s ↔ s[q]? = some 0) ∧
      (s[q]? ≠ some 0 →
        t[p]? ≠ s[p]? ∧ t[q]? ≠ s[q]? ∧ ∀ j, j ≠ p → j ≠ q → t[j]? = s[j]?) := by
  have h4b : (findBlankPositions s).length ≤ 4 := by
    rw [length_findBlankPositions]; exact h4
  obtain ⟨p, hp, hm⟩ := (offered_iff s h4b i move).mp hoff
  obtain ⟨q, hdest, hlink, hq13, hp13, hblank, happ⟩ := apply_offered s hlen i p move hp hm
  have hpl : p < s.length := by omega
  have hql : q < s.length := by omega
  have hpq : p ≠ q := (link_lt hlink).2.2
  have htp : (swapAt s p q)[p]? = s[q]? := by
    rw [getElem?_swapAt s p q p hpl hql]
    simp [hpq]
  have htq : (swapAt s p q)[q]? = s[p]? := by
    rw [getElem?_swapAt s p q q hpl hql]
    simp
  refine ⟨p, q, swapAt s p q, hp, hdest, happ, ?_, ?_⟩
  · constructor
    · intro heq
      rw [heq] at htp
      rw [← htp, hblank]
    · intro hq0
      exact swapAt_blank_self s p q hblank hq0
  · intro hq0
    refine ⟨?_, ?_, ?_⟩
    · rw [htp, hblank]
      exact hq0
    · rw [htq, hblank]
      exact fun h => hq0 h.symm
    · intro j hjp hjq
      rw [getElem?_swapAt s p q j hpl hql]
      simp [hjp, hjq]

theorem blank_swap_iff_witness :
    ∃ (p q : Nat) (t : State), (findBlankPositions default_puzzle)[1]? = some p ∧
      destination p "blank1 down" = (q : Int) ∧
      apply_operator default_puzzle 1 "blank1 down" = some t ∧
      (t = default_puzzle ↔ default_puzzle[q]? = some 0) ∧
      (default_puzzle[q]? ≠ some 0 →
        t[p]? ≠ default_puzzle[p]? ∧ t[q]? ≠ default_puzzle[q]? ∧
          ∀ j, j ≠ p → j ≠ q → t[j]? = default_puzzle[j]?) :=
  blank_swap_iff default_puzzle (by decide) (by decide) 1 "blank1 down"
    ⟨[["right"], ["blank1 down"], ["blank2 down"], ["blank3 down"]], by decide,
      ["blank1 down"], by decide, by decide⟩

/-- C12 (code at the failing input): a 13-cell state with five blanks makes
`get_possible_moves` write `moves[4]` in its table of four entries.  The table
is filled for the first four blanks; the round for blank number 4 is outside it,
so the function and the search that calls it end in an out-of-range access. -/
theorem five_blanks_out_of_range :
    ([0, 0, 0, 0, 0, 1, 2, 3, 4, 5, 6, 7, 8] : State).length = 13 ∧
      findBlankPositions [0, 0, 0, 0, 0, 1, 2, 3, 4, 5, 6, 7, 8] = [0, 1, 2, 3, 4] ∧
      moves_loop [0, 1, 2, 3] 0 (List.replicate 4 []) =
        some [["right"], ["left", "right"], ["left", "right"], ["left", "right", "blank1 up"]] ∧
      moves_for_blank
        [["right"], ["left", "right"], ["left", "right"], ["left", "right", "blank1 up"]] 4 4 =
        none ∧
      get_possible_moves [0, 0, 0, 0, 0, 1, 2, 3, 4, 5, 6, 7, 8] = none ∧
      uniform_cost_search 1 ⟨[0, 0, 0, 0, 0, 1, 2, 3, 4, 5, 6, 7, 8], goal_state⟩ =
        some .undefined_access ∧
      manhattan_heuristic_search 1 ⟨[0, 0, 0, 0, 0, 1, 2, 3, 4, 5, 6, 7, 8], goal_state⟩ =
        some .undefined_access := by
  decide

/-! ## What a round pushes -/

theorem expand_inner_children (h : State → Nat) (node : Node) (E : List State) (i : Nat)
    (acts : List String) (fr fr1 : List Node)
    (hex : expand_inner h node E i acts fr = some fr1) :
    ∃ C, fr1 = fr ++ C ∧
      ∀ c ∈ C, c.state ∉ E ∧ c.path_cost = node.path_cost + 1 ∧
        c.heuristic_cost = h c.state := by
  induction acts generalizing fr with
  | nil =>
    simp only [expand_inner, Option.some.injEq] at hex
    exact ⟨[], by simp [hex], by simp⟩
  | cons move rest ih =>
    unfold expand_inner at hex
    cases happ : apply_operator node.state i move with
    | none =>
      rw [happ] at hex
      cases hex
    | some t =>
      rw [happ] at hex
      simp only at hex
      by_cases hE : t ∈ E
      · rw [if_pos hE] at hex
        exact ih fr hex
      · rw [if_neg hE] at hex
        obtain ⟨C, hC, hall⟩ := ih _ hex
        refine ⟨⟨t, move, node.path_cost + 1, h t⟩ :: C, ?_, ?_⟩
        · rw [hC, List.append_assoc]
          rfl
        · intro c hc
          rcases List.mem_cons.mp hc with rfl | hc
          · exact ⟨hE, rfl, rfl⟩
          · exact hall c hc

theorem expand_outer_children (h : State → Nat) (node : Node) (E : List State)
    (moves : List (List String)) (i0 : Nat) (fr fr1 : List Node)
    (hex : expand_outer h node E i0 moves fr = some fr1) :
    ∃ C, fr1 = fr ++ C ∧
      ∀ c ∈ C, c.state ∉ E ∧ c.path_cost = node.path_cost + 1 ∧
        c.heuristic_cost = h c.state := by
  induction moves generalizing i0 fr with
  | nil =>
    simp only [expand_outer, Option.some.injEq] at hex
    exact ⟨[], by simp [hex], by simp⟩
  | cons acts rest ih =>
    unfold expand_outer at hex
    cases hin : expand_inner h node E i0 acts fr with
    | none =>
      rw [hin] at hex
      cases hex
    | some fr2 =>
      rw [hin] at hex
      simp only at hex
      obtain ⟨C1, hC1, hall1⟩ := expand_inner_children h node E i0 acts fr fr2 hin
      obtain ⟨C2, hC2, hall2⟩ := ih (i0 + 1) fr2 hex
      refine ⟨C1 ++ C2, by rw [hC2, hC1, List.append_assoc], ?_⟩
      intro c hc
      rcases List.mem_append.mp hc with hc | hc
      · exact hall1 c hc
      · exact hall2 c hc

/-- A round that goes on: the node was not the goal, its state enters the
explored set, the counter grows by one, and the pushed children are outside
the explored set and one step deeper. -/
theorem engine_iteration_running (h : State → Nat) (goal : State) (node : Node)
    (rest : List Node) (st st1 : SearchState)
    (hit : engine_iteration h goal node rest st = .running st1) :
    node.state ≠ goal ∧ st1.explored = explored_insert st.explored node.state ∧
      st1.nodes_expanded = st.nodes_expanded + 1 ∧
      st1.max_queue_size = max st.max_queue_size st1.frontier.length ∧
      ∃ C, st1.frontier = rest ++ C ∧
        ∀ c ∈ C, c.state ∉ explored_insert st.explored node.state ∧
          c.path_cost = node.path_cost + 1 ∧ c.heuristic_cost = h c.state := by
  have hng : node.state ≠ goal := by
    intro hg
    rw [engine_iteration_goal h goal node rest st hg] at hit
    cases hit
  unfold engine_iteration at hit
  rw [if_neg (by simpa using hng)] at hit
  cases hgm : get_possible_moves node.state with
  | none =>
    rw [hgm] at hit
    cases hit
  | some moves =>
    rw [hgm] at hit
    simp only at hit
    cases hex : expand_outer h node (explored_insert st.explored node.state) 0 moves rest with
    | none =>
      rw [hex] at hit
      cases hit
    | some fr1 =>
      rw [hex] at hit
      simp only at hit
      have hst1 := Iteration.running.inj hit
      subst hst1
      obtain ⟨C, hC, hall⟩ := expand_outer_children h node _ moves 0 rest fr1 hex
      exact ⟨hng, rfl, rfl, rfl, C, hC, hall⟩

/-- C14: frontier insertion invariant.  In a round of either search that goes
on after `node` was taken and `rest` remained, the new frontier is `rest`
followed by the pushed children; no child's state is in the explored set of
that moment (the old set with the state of `node`), and each child's
`path_cost` is that of `node` plus one. -/
theorem frontier_insertion (problem : Problem) (node : Node) (rest : List Node)
    (st st1 : SearchState)
    (hit : ucs_iteration problem node rest st = .running st1 ∨
      astar_iteration problem node rest st = .running st1) :
    st1.explored = explored_insert st.explored node.state ∧
      ∃ C, st1.frontier = rest ++ C ∧
        ∀ c ∈ C, c.state ∉ st1.explored ∧ c.state ∉ st.explored ∧
          c.path_cost = node.path_cost + 1 := by
  have key : ∀ h : State → Nat,
      engine_iteration h problem.goal_state node rest st = .running st1 →
      st1.explored = explored_insert st.explored node.state ∧
        ∃ C, st1.frontier = rest ++ C ∧
          ∀ c ∈ C, c.state ∉ st1.explored ∧ c.state ∉ st.explored ∧
            c.path_cost = node.path_cost + 1 := by
    intro h hrun
    obtain ⟨-, hexp, -, -, C, hC, hall⟩ :=
      engine_iteration_running h problem.goal_state node rest st st1 hrun
    refine ⟨hexp, C, hC, ?_⟩
    intro c hc
    obtain ⟨h1, h2, -⟩ := hall c hc
    refine ⟨by rw [hexp]; exact h1, ?_, h2⟩
    intro hmem
    exact h1 ((mem_explored_insert _ _ _).mpr (Or.inr hmem))
  rcases hit with hit | hit
  · rw [ucs_iteration_eq] at hit
    exact key _ hit
  · rw [astar_iteration_eq] at hit
    exact key _ hit

theorem frontier_insertion_witness :
    (⟨[⟨[2, 0, 3, 4, 5, 6, 7, 8, 9, 1, 0, 0, 0], "right", 1, 0⟩,
        ⟨[0, 2, 3, 0, 5, 6, 7, 8, 9, 1, 4, 0, 0], "blank1 down", 1, 0⟩,
        ⟨[0, 2, 3, 4, 5, 0, 7, 8, 9, 1, 0, 6, 0], "blank2 down", 1, 0⟩,
        ⟨[0, 2, 3, 4, 5, 6, 7, 0, 9, 1, 0, 0, 8], "blank3 down", 1, 0⟩],
        [default_puzzle], 1, 4⟩ : SearchState).explored =
        explored_insert (ucs_initial ⟨default_puzzle, goal_state⟩).explored
          (⟨default_puzzle, "", 0, 0⟩ : Node).state ∧
      ∃ C, (⟨[⟨[2, 0, 3, 4, 5, 6, 7, 8, 9, 1, 0, 0, 0], "right", 1, 0⟩,
        ⟨[0, 2, 3, 0, 5, 6, 7, 8, 9, 1, 4, 0, 0], "blank1 down", 1, 0⟩,
        ⟨[0, 2, 3, 4, 5, 0, 7, 8, 9, 1, 0, 6, 0], "blank2 down", 1, 0⟩,
        ⟨[0, 2, 3, 4, 5, 6, 7, 0, 9, 1, 0, 0, 8], "blank3 down", 1, 0⟩],
        [default_puzzle], 1, 4⟩ : SearchState).frontier = [] ++ C ∧
        ∀ c ∈ C, c.state ∉ (⟨[⟨[2, 0, 3, 4, 5, 6, 7, 8, 9, 1, 0, 0, 0], "right", 1, 0⟩,
            ⟨[0, 2, 3, 0, 5, 6, 7, 8, 9, 1, 4, 0, 0], "blank1 down", 1, 0⟩,
            ⟨[0, 2, 3, 4, 5, 0, 7, 8, 9, 1, 0, 6, 0], "blank2 down", 1, 0⟩,
            ⟨[0, 2, 3, 4, 5, 6, 7, 0, 9, 1, 0, 0, 8], "blank3 down", 1, 0⟩],
            [default_puzzle], 1, 4⟩ : SearchState).explored ∧
          c.state ∉ (ucs_initial ⟨default_puzzle, goal_state⟩).explored ∧
          c.path_cost = (⟨default_puzzle, "", 0, 0⟩ : Node).path_cost + 1 :=
  frontier_insertion ⟨default_puzzle, goal_state⟩ ⟨default_puzzle, "", 0, 0⟩ []
    (ucs_initial ⟨default_puzzle, goal_state⟩) _ (Or.inl (by decide))

/-- C18: the two searches are one engine with two heuristics.  The loop of
`manhattan_heuristic_search` is `engine_iteration` with `Calheuristic`; with the
function that is 0 on every state in its place, its rounds, its initial
variables, its runs and the report of its executable loop are those of
`uniform_cost_search`. -/
theorem ucs_is_zero_engine (problem : Problem) :
    (astar_iteration problem =
        engine_iteration (fun s => Calheuristic s problem.goal_state) problem.goal_state ∧
      astar_initial problem =
        engine_initial (fun s => Calheuristic s problem.goal_state) problem ∧
      ∀ fuel, manhattan_heuristic_search fuel problem =
        engine_search (fun s => Calheuristic s problem.goal_state) fuel problem) ∧
    (ucs_iteration problem = engine_iteration (fun _ => 0) problem.goal_state ∧
      ucs_initial problem = engine_initial (fun _ => 0) problem ∧
      (∀ fuel, uniform_cost_search fuel problem = engine_search (fun _ => 0) fuel problem) ∧
      ∀ o, Runs (ucs_iteration problem) (ucs_initial problem) o ↔
        Runs (engine_iteration (fun _ => 0) problem.goal_state)
          (engine_initial (fun _ => 0) problem) o) := by
  refine ⟨⟨astar_iteration_eq problem, rfl, ?_⟩, ⟨ucs_iteration_eq problem, rfl, ?_, ?_⟩⟩
  · intro fuel
    unfold manhattan_heuristic_search engine_search
    rw [astar_iteration_eq]
    rfl
  · intro fuel
    unfold uniform_cost_search engine_search
    rw [ucs_iteration_eq]
    rfl
  · intro o
    rw [ucs_iteration_eq]
    rfl

/-! ## States reached by a loop -/

theorem search_rounds_reaches (iter : Node → List Node → SearchState → Iteration) (n : Nat)
    (st st1 : SearchState) (h : search_rounds iter n st = some st1) : Reaches iter st st1 := by
  induction n generalizing st with
  | zero =>
    simp only [search_rounds, Option.some.injEq] at h
    subst h
    exact Relation.ReflTransGen.refl
  | succ n ih =>
    unfold search_rounds at h
    cases hpop : pop_top st.frontier with
    | none =>
      rw [hpop] at h
      cases h
    | some pr =>
      obtain ⟨node, rest⟩ := pr
      rw [hpop] at h
      simp only at h
      cases hit : iter node rest st with
      | finished o =>
        rw [hit] at h
        cases h
      | running st2 =>
        rw [hit] at h
        exact Relation.ReflTransGen.head ⟨node, rest, pop_top_some _ _ _ hpop, hit⟩ (ih st2 h)

theorem search_rounds_last (iter : Node → List Node → SearchState → Iteration) (n : Nat)
    (st st1 : SearchState) (h : search_rounds iter (n + 1) st = some st1) :
    ∃ st0 node rest, search_rounds iter n st = some st0 ∧
      pop_top st0.frontier = some (node, rest) ∧ iter node rest st0 = .running st1 := by
  induction n generalizing st with
  | zero =>
    unfold search_rounds at h
    cases hpop : pop_top st.frontier with
    | none =>
      rw [hpop] at h
      cases h
    | some pr =>
      obtain ⟨node, rest⟩ := pr
      rw [hpop] at h
      simp only at h
      cases hit : iter node rest st with
      | finished o =>
        rw [hit] at h
        cases h
      | running st2 =>
        rw [hit] at h
        simp only [search_rounds, Option.some.injEq] at h
        subst h
        exact ⟨st, node, rest, rfl, hpop, hit⟩
  | succ n ih =>
    rw [search_rounds] at h
    cases hpop : pop_top st.frontier with
    | none =>
      rw [hpop] at h
      cases h
    | some pr =>
      obtain ⟨node, rest⟩ := pr
      rw [hpop] at h
      simp only at h
      cases hit : iter node rest st with
      | finished o =>
        rw [hit] at h
        cases h
      | running st2 =>
        rw [hit] at h
        obtain ⟨st0, node0, rest0, h0, hpop0, hit0⟩ := ih st2 h
        refine ⟨st0, node0, rest0, ?_, hpop0, hit0⟩
        rw [search_rounds, hpop]
        simp only
        rw [hit]
        exact h0

theorem reaches_invariant (iter : Node → List Node → SearchState → Iteration)
    (P : SearchState → Prop) (hstep : ∀ st st1, P st → Steps iter st st1 → P st1)
    (st st1 : SearchState) (h0 : P st) (hreach : Reaches iter st st1) : P st1 := by
  induction hreach with
  | refl => exact h0
  | tail _ hlast ih => exact hstep _ _ ih hlast

theorem length_explored_insert_le (E : List State) (x : State) :
    (explored_insert E x).length ≤ E.length + 1 := by
  unfold explored_insert
  split_ifs <;> simp

theorem nodup_explored_insert (E : List State) (x : State) (h : E.Nodup) :
    (explored_insert E x).Nodup := by
  unfold explored_insert
  split_ifs with hmem
  · exact h
  · exact List.nodup_cons.mpr ⟨hmem, h⟩

/-- The explored set never repeats a state and never has more states than the
counter of expanded nodes. -/
theorem engine_count_invariant (h : State → Nat) (goal : State) (st st1 : SearchState)
    (hst : st.explored.Nodup ∧ st.explored.length ≤ st.nodes_expanded)
    (hreach : Reaches (engine_iteration h goal) st st1) :
    st1.explored.Nodup ∧ st1.explored.length ≤ st1.nodes_expanded := by
  refine reaches_invariant (engine_iteration h goal)
    (fun s => s.explored.Nodup ∧ s.explored.length ≤ s.nodes_expanded) ?_ st st1 hst hreach
  rintro a b ⟨hnd, hle⟩ ⟨node, rest, -, hit⟩
  obtain ⟨-, hexp, hcnt, -, -⟩ := engine_iteration_running h goal node rest a b hit
  rw [hexp, hcnt]
  have := length_explored_insert_le a.explored node.state
  exact ⟨nodup_explored_insert _ _ hnd, by omega⟩

/-- C13 (counterexample): a state is expanded twice.  From
`[0,0,0,1,2,3,4,5,6,7,8,9,0]` the two moves "blank at 2 to the right" and
"blank at 12 down" can be made in either order; both nodes of depth 2 with the
resulting state are pushed before either is popped.  In the run of
`uniform_cost_search` that takes the oldest top node, round 8 pops a node that is
not the goal and whose state is already explored, and expands it: afterwards 8
nodes are expanded and the explored set holds 7 states. -/
theorem state_expanded_twice :
    ∃ st node rest st1,
      Reaches (ucs_iteration ⟨[0, 0, 0, 1, 2, 3, 4, 5, 6, 7, 8, 9, 0], goal_state⟩)
        (ucs_initial ⟨[0, 0, 0, 1, 2, 3, 4, 5, 6, 7, 8, 9, 0], goal_state⟩) st ∧
      IsTop st.frontier node rest ∧
      ucs_iteration ⟨[0, 0, 0, 1, 2, 3, 4, 5, 6, 7, 8, 9, 0], goal_state⟩ node rest st =
        .running st1 ∧
      node.state ≠ goal_state ∧ node.state ∈ st.explored ∧
      st1.nodes_expanded = 8 ∧ st1.explored.length = 7 ∧ st1.explored.Nodup := by
  have h8 : (search_rounds (ucs_iteration ⟨[0, 0, 0, 1, 2, 3, 4, 5, 6, 7, 8, 9, 0], goal_state⟩) 8
      (ucs_initial ⟨[0, 0, 0, 1, 2, 3, 4, 5, 6, 7, 8, 9, 0], goal_state⟩)).map
      (fun st => (st.nodes_expanded, st.explored.length)) = some (8, 7) := by
    decide
  have h7 : (search_rounds (ucs_iteration ⟨[0, 0, 0, 1, 2, 3, 4, 5, 6, 7, 8, 9, 0], goal_state⟩) 7
      (ucs_initial ⟨[0, 0, 0, 1, 2, 3, 4, 5, 6, 7, 8, 9, 0], goal_state⟩)).map
      (fun st => st.explored.length) = some 7 := by
    decide
  obtain ⟨st8, hr8, hf8⟩ := Option.map_eq_some'.mp h8
  obtain ⟨st7, node, rest, hr7, hpop, hit⟩ := search_rounds_last _ 7 _ st8 hr8
  rw [hr7] at h7
  have hl7 : st7.explored.length = 7 := by simpa using h7
  have hn8 : st8.nodes_expanded = 8 := (Prod.mk.inj hf8).1
  have hl8 : st8.explored.length = 7 := (Prod.mk.inj hf8).2
  have hreach7 := search_rounds_reaches _ 7 _ st7 hr7
  have hreach8 := search_rounds_reaches _ 8 _ st8 hr8
  have hit2 := hit
  rw [ucs_iteration_eq] at hit2 hreach8
  obtain ⟨hng, hexp, -, -, -⟩ := engine_iteration_running _ _ node rest st7 st8 hit2
  have hnd := (engine_count_invariant _ _ _ st8 ⟨List.nodup_nil, Nat.le_refl _⟩ hreach8).1
  refine ⟨st7, node, rest, st8, hreach7, pop_top_some _ _ _ hpop, hit, hng, ?_, hn8, hl8, hnd⟩
  by_contra hmem
  rw [hexp] at hl8
  unfold explored_insert at hl8
  rw [if_neg hmem] at hl8
  simp only [List.length_cons] at hl8
  omega

/-- C13 (amended): in every state a run of either search reaches, the explored
set has no repetition and holds at most as many states as nodes were expanded;
a popped node that is not the goal is expanded whether or not its state is
explored already. -/
theorem expanded_ge_explored (problem : Problem) (st : SearchState)
    (hreach : Reaches (ucs_iteration problem) (ucs_initial problem) st ∨
      Reaches (astar_iteration problem) (astar_initial problem) st) :
    st.explored.Nodup ∧ st.explored.length ≤ st.nodes_expanded := by
  rcases hreach with hreach | hreach
  · rw [ucs_iteration_eq] at hreach
    exact engine_count_invariant _ _ _ st ⟨List.nodup_nil, Nat.le_refl _⟩ hreach
  · rw [astar_iteration_eq] at hreach
    exact engine_count_invariant _ _ _ st ⟨List.nodup_nil, Nat.le_refl _⟩ hreach

theorem expanded_ge_explored_witness :
    (⟨[⟨[2, 0, 3, 4, 5, 6, 7, 8, 9, 1, 0, 0, 0], "right", 1, 0⟩,
        ⟨[0, 2, 3, 0, 5, 6, 7, 8, 9, 1, 4, 0, 0], "blank1 down", 1, 0⟩,
        ⟨[0, 2, 3, 4, 5, 0, 7, 8, 9, 1, 0, 6, 0], "blank2 down", 1, 0⟩,
        ⟨[0, 2, 3, 4, 5, 6, 7, 0, 9, 1, 0, 0, 8], "blank3 down", 1, 0⟩],
        [default_puzzle], 1, 4⟩ : SearchState).explored.Nodup ∧
      (⟨[⟨[2, 0, 3, 4, 5, 6, 7, 8, 9, 1, 0, 0, 0], "right", 1, 0⟩,
        ⟨[0, 2, 3, 0, 5, 6, 7, 8, 9, 1, 4, 0, 0], "blank1 down", 1, 0⟩,
        ⟨[0, 2, 3, 4, 5, 0, 7, 8, 9, 1, 0, 6, 0], "blank2 down", 1, 0⟩,
        ⟨[0, 2, 3, 4, 5, 6, 7, 0, 9, 1, 0, 0, 8], "blank3 down", 1, 0⟩],
        [default_puzzle], 1, 4⟩ : SearchState).explored.length ≤
      (⟨[⟨[2, 0, 3, 4, 5, 6, 7, 8, 9, 1, 0, 0, 0], "right", 1, 0⟩,
        ⟨[0, 2, 3, 0, 5, 6, 7, 8, 9, 1, 4, 0, 0], "blank1 down", 1, 0⟩,
        ⟨[0, 2, 3, 4, 5, 0, 7, 8, 9, 1, 0, 6, 0], "blank2 down", 1, 0⟩,
        ⟨[0, 2, 3, 4, 5, 6, 7, 0, 9, 1, 0, 0, 8], "blank3 down", 1, 0⟩],
        [default_puzzle], 1, 4⟩ : SearchState).nodes_expanded :=
  expanded_ge_explored ⟨default_puzzle, goal_state⟩ _
    (Or.inl (Relation.ReflTransGen.single
      ⟨⟨default_puzzle, "", 0, 0⟩, [], ⟨List.Perm.refl _, by simp⟩, by decide⟩))

/-! ## Completeness -/

theorem search_inv_reaches (h : State → Nat) (goal init : State) (hlen : init.length = 13)
    (h4 : init.count 0 ≤ 4) (st st1 : SearchState) (hinv : SearchInv init st)
    (hreach : Reaches (engine_iteration h goal) st st1) : SearchInv init st1 :=
  reaches_invariant (engine_iteration h goal) (SearchInv init)
    (fun a b ha hstep => (engine_step h goal init hlen h4 a b ha hstep).1) st st1 hinv hreach

theorem reach_step (h : State → Nat) (init goal : State) (hlen : init.length = 13)
    (h4 : init.count 0 ≤ 4) (st st1 : SearchState) (hinv : ReachInv init goal st)
    (hstep : Steps (engine_iteration h goal) st st1) : ReachInv init goal st1 := by
  have hinv1 := (engine_step h goal init hlen h4 st st1 hinv.1 hstep).1
  obtain ⟨node, rest, htop, hit⟩ := hstep
  obtain ⟨hsi, hcost, hwit⟩ := hinv
  have hperm := htop.1
  have hnodemem : node ∈ st.frontier := hperm.mem_iff.mpr (List.mem_cons_self _ _)
  have hnode : node.state.Perm init := hsi.1 node hnodemem
  have hnlen : node.state.length = 13 := by rw [hnode.length_eq]; exact hlen
  have hn4 : node.state.count 0 ≤ 4 := by rw [hnode.count_eq]; exact h4
  have hng : node.state ≠ goal := by
    intro hg
    rw [engine_iteration_goal h goal node rest st hg] at hit
    cases hit
  obtain ⟨C, hC, hchild, hall⟩ := engine_iteration_spec h goal node rest st hnlen hn4 hng
  rw [hC] at hit
  have hst1 := Iteration.running.inj hit
  subst hst1
  have hand : ∀ j, AvoidPath (explored_insert st.explored node.state) j node.state goal →
      ∃ c ∈ C, ∃ k1, AvoidPath (explored_insert st.explored node.state) k1 c.state goal := by
    intro j hpath
    cases hpath with
    | nil => exact absurd rfl hng
    | cons n _ m _ hmove hm hrest =>
      obtain ⟨c, hc, hcm⟩ := hall m hmove hm
      exact ⟨c, hc, n, by rw [hcm]; exact hrest⟩
  refine ⟨hinv1, ?_, ?_⟩
  · intro n hn
    rcases List.mem_append.mp hn with hn | hn
    · exact hcost n (hperm.mem_iff.mpr (List.mem_cons_of_mem _ hn))
    · obtain ⟨hmove, -, hg, -⟩ := hchild n hn
      rw [hg]
      exact move_path_append (hcost node hnodemem)
        (MovePath.cons 0 _ _ _ hmove (MovePath.nil _))
  · intro hex
    obtain ⟨n0, hn0, k, hav⟩ := hwit hex
    rcases avoid_insert (mem_explored_insert st.explored node.state) hav with
      hav1 | ⟨j, -, -, hav1⟩
    · rcases List.mem_cons.mp (hperm.mem_iff.mp hn0) with rfl | hrest
      · obtain ⟨c, hc, k1, hp1⟩ := hand k hav1
        exact ⟨c, List.mem_append_right _ hc, k1, hp1⟩
      · exact ⟨n0, List.mem_append_left _ hrest, k, hav1⟩
    · obtain ⟨c, hc, k1, hp1⟩ := hand j hav1
      exact ⟨c, List.mem_append_right _ hc, k1, hp1⟩

theorem reach_runs (h : State → Nat) (init goal : State) (hlen : init.length = 13)
    (h4 : init.count 0 ≤ 4) (st : SearchState) (o : Outcome)
    (hrun : Runs (engine_iteration h goal) st o) (hinv : ReachInv init goal st) :
    ((∃ k, MovePath k init goal) → ∃ d e q, o = .goal d e q) ∧
      ((¬ ∃ k, MovePath k init goal) → ∃ e q, o = .no_solution e q) := by
  induction hrun with
  | exhausted st hfr =>
    refine ⟨?_, fun _ => ⟨_, _, rfl⟩⟩
    intro hex
    obtain ⟨n0, hn0, -⟩ := hinv.2.2 hex
    rw [hfr] at hn0
    cases hn0
  | finished st node rest o htop hit =>
    have hnodemem : node ∈ st.frontier := htop.1.mem_iff.mpr (List.mem_cons_self _ _)
    have hnode : node.state.Perm init := hinv.1.1 node hnodemem
    by_cases hg : node.state = goal
    · rw [engine_iteration_goal h goal node rest st hg] at hit
      have ho := (Iteration.finished.inj hit).symm
      subst ho
      refine ⟨fun _ => ⟨_, _, _, rfl⟩, ?_⟩
      intro hno
      exact absurd ⟨node.path_cost, hg ▸ hinv.2.1 node hnodemem⟩ hno
    · obtain ⟨C, hC, -, -⟩ := engine_iteration_spec h goal node rest st
        (by rw [hnode.length_eq]; exact hlen) (by rw [hnode.count_eq]; exact h4) hg
      rw [hC] at hit
      cases hit
  | step st st1 node rest o htop hit _ ih =>
    exact ih (reach_step h init goal hlen h4 st st1 hinv ⟨node, rest, htop, hit⟩)

theorem reach_initial (h : State → Nat) (problem : Problem) :
    ReachInv problem.initial_state problem.goal_state (engine_initial h problem) := by
  refine ⟨inv_initial _ _, ?_, ?_⟩
  · intro n hn
    simp only [engine_initial, List.mem_singleton] at hn
    subst hn
    exact MovePath.nil _
  · rintro ⟨k, hk⟩
    exact ⟨_, List.mem_singleton.mpr rfl, k, move_to_avoid hk⟩

/-- The outcome of a search with any heuristic from a 13-cell state with at
most four blanks. -/
theorem engine_outcome (h : State → Nat) (problem : Problem)
    (hlen : problem.initial_state.length = 13) (h4 : problem.initial_state.count 0 ≤ 4) :
    (Terminates (engine_iteration h problem.goal_state) (engine_initial h problem) ∧
        ∃ fuel o, engine_search h fuel problem = some o) ∧
      ∀ o, Runs (engine_iteration h problem.goal_state) (engine_initial h problem) o →
        ((∃ e q, o = .no_solution e q) ↔
          ¬ ∃ n, MovePath n problem.initial_state problem.goal_state) ∧
        ((∃ d e q, o = .goal d e q) ↔
          ∃ n, MovePath n problem.initial_state problem.goal_state) ∧
        o ≠ .undefined_access := by
  have hterm := engine_terminates h problem.goal_state problem.initial_state hlen h4
    (engine_initial h problem) (inv_initial _ _)
  refine ⟨⟨hterm, search_loop_returns _ _ hterm⟩, ?_⟩
  intro o hrun
  obtain ⟨hyes, hno⟩ := reach_runs h problem.initial_state problem.goal_state hlen h4 _ o hrun
    (reach_initial h problem)
  by_cases hex : ∃ n, MovePath n problem.initial_state problem.goal_state
  · obtain ⟨d, e, q, ho⟩ := hyes hex
    subst ho
    refine ⟨⟨?_, fun hc => absurd hex hc⟩, ⟨fun _ => hex, fun _ => ⟨d, e, q, rfl⟩⟩, ?_⟩
    · rintro ⟨e1, q1, hc⟩
      cases hc
    · intro hc
      cases hc
  · obtain ⟨e, q, ho⟩ := hno hex
    subst ho
    refine ⟨⟨fun _ => hex, fun _ => ⟨e, q, rfl⟩⟩, ⟨?_, fun hc => absurd hc hex⟩, ?_⟩
    · rintro ⟨d1, e1, q1, hc⟩
      cases hc
    · intro hc
      cases hc

/-- C11: from a 13-cell initial state with at most four blanks every run of each
search is finite and the search returns; every run ends in the report that no
solution was found exactly when no sequence of legal moves leads from the
initial state to the goal, in the goal report exactly when one does, and never
in an out-of-range access. -/
theorem search_outcome (problem : Problem) (hlen : problem.initial_state.length = 13)
    (h4 : problem.initial_state.count 0 ≤ 4) :
    ((Terminates (ucs_iteration problem) (ucs_initial problem) ∧
        ∃ fuel o, uniform_cost_search fuel problem = some o) ∧
      ∀ o, Runs (ucs_iteration problem) (ucs_initial problem) o →
        ((∃ e q, o = .no_solution e q) ↔
          ¬ ∃ n, MovePath n problem.initial_state problem.goal_state) ∧
        ((∃ d e q, o = .goal d e q) ↔
          ∃ n, MovePath n problem.initial_state problem.goal_state) ∧
        o ≠ .undefined_access) ∧
    ((Terminates (astar_iteration problem) (astar_initial problem) ∧
        ∃ fuel o, manhattan_heuristic_search fuel problem = some o) ∧
      ∀ o, Runs (astar_iteration problem) (astar_initial problem) o →
        ((∃ e q, o = .no_solution e q) ↔
          ¬ ∃ n, MovePath n problem.initial_state problem.goal_state) ∧
        ((∃ d e q, o = .goal d e q) ↔
          ∃ n, MovePath n problem.initial_state problem.goal_state) ∧
        o ≠ .undefined_access) := by
  have hu := engine_outcome (fun _ => 0) problem hlen h4
  have ha := engine_outcome (fun s => Calheuristic s problem.goal_state) problem hlen h4
  unfold engine_search at hu ha
  unfold uniform_cost_search manhattan_heuristic_search
  rw [ucs_iteration_eq, astar_iteration_eq]
  exact ⟨hu, ha⟩

theorem search_outcome_witness :
    ((Terminates (ucs_iteration ⟨default_puzzle, goal_state⟩)
          (ucs_initial ⟨default_puzzle, goal_state⟩) ∧
        ∃ fuel o, uniform_cost_search fuel ⟨default_puzzle, goal_state⟩ = some o) ∧
      ∀ o, Runs (ucs_iteration ⟨default_puzzle, goal_state⟩)
          (ucs_initial ⟨default_puzzle, goal_state⟩) o →
        ((∃ e q, o = .no_solution e q) ↔ ¬ ∃ n, MovePath n default_puzzle goal_state) ∧
        ((∃ d e q, o = .goal d e q) ↔ ∃ n, MovePath n default_puzzle goal_state) ∧
        o ≠ .undefined_access) ∧
    ((Terminates (astar_iteration ⟨default_puzzle, goal_state⟩)
          (astar_initial ⟨default_puzzle, goal_state⟩) ∧
        ∃ fuel o, manhattan_heuristic_search fuel ⟨default_puzzle, goal_state⟩ = some o) ∧
      ∀ o, Runs (astar_iteration ⟨default_puzzle, goal_state⟩)
          (astar_initial ⟨default_puzzle, goal_state⟩) o →
        ((∃ e q, o = .no_solution e q) ↔ ¬ ∃ n, MovePath n default_puzzle goal_state) ∧
        ((∃ d e q, o = .goal d e q) ↔ ∃ n, MovePath n default_puzzle goal_state) ∧
        o ≠ .undefined_access) :=
  search_outcome ⟨default_puzzle, goal_state⟩ (by decide) (by decide)

/-- C15: a legal move keeps the state valid.  An offered move on a 13-cell state
with at most four blanks returns a state of 13 cells that is a permutation of
`s`; so every state in the frontier of a search from a valid initial state is
an arrangement of the values 0,0,0,0,1..9. -/
theorem moves_keep_valid :
    (∀ (s : State) (i : Nat) (move : String), s.length = 13 → s.count 0 ≤ 4 →
      Offered s i move →
      ∃ t, apply_operator s i move = some t ∧ t.length = 13 ∧ t.Perm s) ∧
    (∀ (problem : Problem) (st : SearchState), problem.initial_state.Perm goal_state →
      (Reaches (ucs_iteration problem) (ucs_initial problem) st ∨
        Reaches (astar_iteration problem) (astar_initial problem) st) →
      ∀ n ∈ st.frontier, n.state.length = 13 ∧ n.state.Perm goal_state) := by
  constructor
  · intro s i move hlen h4 hoff
    obtain ⟨t, happ⟩ := offered_apply s hlen h4 i move hoff
    have hperm := legal_move_perm s t hlen h4 ⟨i, move, hoff, happ⟩
    exact ⟨t, happ, by rw [hperm.length_eq]; exact hlen, hperm⟩
  · intro problem st hvalid hreach n hn
    have key : ∀ h : State → Nat,
        Reaches (engine_iteration h problem.goal_state) (engine_initial h problem) st →
        n.state.Perm goal_state := by
      intro h hr
      have hinv := search_inv_reaches h problem.goal_state problem.initial_state
        (valid_length hvalid) (valid_blanks hvalid) _ st (inv_initial _ _) hr
      exact (hinv.1 n hn).trans hvalid
    have hperm : n.state.Perm goal_state := by
      rcases hreach with hr | hr
      · rw [ucs_iteration_eq] at hr
        exact key _ hr
      · rw [astar_iteration_eq] at hr
        exact key _ hr
    exact ⟨valid_length hperm, hperm⟩

theorem moves_keep_valid_witness :
    (∃ t, apply_operator default_puzzle 1 "blank1 down" = some t ∧ t.length = 13 ∧
      t.Perm default_puzzle) ∧
    (∀ n ∈ (ucs_initial ⟨default_puzzle, goal_state⟩).frontier,
      n.state.length = 13 ∧ n.state.Perm goal_state) :=
  ⟨moves_keep_valid.1 default_puzzle 1 "blank1 down" (by decide) (by decide)
      ⟨[["right"], ["blank1 down"], ["blank2 down"], ["blank3 down"]], by decide,
        ["blank1 down"], by decide, by decide⟩,
    moves_keep_valid.2 ⟨default_puzzle, goal_state⟩ _ (by decide)
      (Or.inl Relation.ReflTransGen.refl)⟩

end NineMen
